import Mathlib

/-!
Verification of the `briltool` core (basic-block formation, CFG construction,
dead-code elimination, local value numbering) against its natural-language
specification.  Python dicts with string keys are modelled as insertion-ordered
association lists; instruction records are modelled as a structure holding the
fields the core reads (`label`, `op`, `dest`, `args`, `value`, `labels`).
-/

/-- One IR instruction or label marker (a Python dict in the source;
absent fields are `none` / `[]`). -/
structure Instr where
  label : Option String := none
  op : Option String := none
  dest : Option String := none
  args : List String := []
  value : Option Int := none
  labels : List String := []
deriving DecidableEq, Repr

/-- `TERMINATORS = {"jmp", "br", "ret"}` from `ir.py`. -/
def TERMINATORS : List String := ["jmp", "br", "ret"]

/-- `COMMUTATIVE = {"add", "mul"}` from `ir.py`. -/
def COMMUTATIVE : List String := ["add", "mul"]

/-- `is_label`: has a `label` field and no `op` field. -/
def is_label (i : Instr) : Bool := i.label.isSome && i.op.isNone

/-- `get_dest` from `ir.py`. -/
def get_dest (i : Instr) : Option String := i.dest

/-- `get_args` from `ir.py`. -/
def get_args (i : Instr) : List String := i.args

/-- Whether the instruction's operation is a terminator
(`instr.get("op") in TERMINATORS`). -/
def isTerm (i : Instr) : Bool :=
  match i.op with
  | some o => TERMINATORS.contains o
  | none => false

/-- A bare label marker `{"label": l}`. -/
def mkLabel (l : String) : Instr := { label := some l }

/-! ### Insertion-ordered dictionaries (Python `dict`) -/

/-- `d[k] = v`: update in place if the key exists (keeping its position),
otherwise append at the end. -/
def dinsert [DecidableEq κ] (k : κ) (v : α) : List (κ × α) → List (κ × α)
  | [] => [(k, v)]
  | (k', v') :: rest => if k' = k then (k, v) :: rest else (k', v') :: dinsert k v rest

/-- `d.get(k)`: first binding of `k`. -/
def dlookup [DecidableEq κ] (k : κ) : List (κ × α) → Option α
  | [] => none
  | (k', v) :: rest => if k' = k then some v else dlookup k rest

/-- `d.setdefault(k, v)`: insert `(k, v)` at the end only if `k` is absent. -/
def setdefault [DecidableEq κ] (k : κ) (v : α) (m : List (κ × α)) : List (κ × α) :=
  if (dlookup k m).isSome then m else m ++ [(k, v)]

/-- `d.setdefault(k, []).append(x)`: append `x` to the sequence stored at `k`,
creating the entry at the end if missing. -/
def dappend [DecidableEq κ] (k : κ) (x : α) : List (κ × List α) → List (κ × List α)
  | [] => [(k, [x])]
  | (k', v) :: rest => if k' = k then (k, v ++ [x]) :: rest else (k', v) :: dappend k x rest

/-- `d.pop(k, None)`: drop the binding of `k` if present. -/
def dremove [DecidableEq κ] (k : κ) : List (κ × α) → List (κ × α)
  | [] => []
  | (k', v) :: rest => if k' = k then rest else (k', v) :: dremove k rest

/-- The keys of a dictionary, in order. -/
def dkeys [DecidableEq κ] (m : List (κ × α)) : List κ := m.map Prod.fst

/-! ### Block formation (`cfg.py`) -/

/-- Block + CFG container for one function (`BlockInfo` in `ir.py`). -/
structure BlockInfo where
  function_name : String
  label_map : List (String × List Instr)
  label_to_block_id : List (String × String)
  successors : List (String × List String) := []
  predecessors : List (String × List String) := []
deriving DecidableEq, Repr

/-- Mutable state of `form_blocks`: the two maps, the synthetic-name counter
(`block_id_generator`), the accumulator block and the pending label. -/
structure FBState where
  label_map : List (String × List Instr)
  label_to_block_id : List (String × String)
  gen : Nat
  current_block : List Instr
  current_label : Option String
deriving DecidableEq, Repr

/-- `close_block` from `form_blocks`: materialize the accumulator unless it is
empty; a pending label yields identifier `name::label` (recorded in
`label_to_block_id`), otherwise `name::b<gen>` with the counter advanced. -/
def close_block (name : String) (s : FBState) : FBState :=
  if s.current_block = [] then s
  else
    match s.current_label with
    | some l =>
        let block_name := name ++ "::" ++ l
        { label_map := dinsert block_name s.current_block s.label_map
          label_to_block_id := dinsert l block_name s.label_to_block_id
          gen := s.gen
          current_block := []
          current_label := none }
    | none =>
        let block_name := name ++ "::b" ++ toString s.gen
        { label_map := dinsert block_name s.current_block s.label_map
          label_to_block_id := s.label_to_block_id
          gen := s.gen + 1
          current_block := []
          current_label := none }

/-- The loop body of `form_blocks`: a label closes the block and becomes
pending; anything else is appended, closing the block after a terminator. -/
def fb_step (name : String) (s : FBState) (i : Instr) : FBState :=
  if is_label i then
    { close_block name s with current_label := i.label }
  else
    let s' := { s with current_block := s.current_block ++ [i] }
    if isTerm i then close_block name s' else s'

/-- `form_blocks` from `cfg.py`. -/
def form_blocks (body : List Instr) (name : String) : BlockInfo :=
  let s := close_block name (body.foldl (fb_step name) ⟨[], [], 0, [], none⟩)
  { function_name := name
    label_map := s.label_map
    label_to_block_id := s.label_to_block_id }

/-! ### Re-linearization (`output_json_prog` in `driver.py`) -/

/-- `{block_id: label for label, block_id in label_to_block_id.items()}`. -/
def invertMap (m : List (String × String)) : List (String × String) :=
  m.foldl (fun acc p => dinsert p.2 p.1 acc) []

/-- The `instrs` list `output_json_prog` emits for one function: blocks in
stored order, each preceded by a label marker exactly when its identifier is
in the inverted label map. -/
def relinearize (blks : BlockInfo) : List Instr :=
  let inv := invertMap blks.label_to_block_id
  blks.label_map.flatMap (fun p =>
    (match dlookup p.1 inv with
     | some l => [mkLabel l]
     | none => []) ++ p.2)

/-! ### Dead-code elimination (`passes/dce.py`) -/

/-- All argument-variable names appearing anywhere in the function's blocks
(the `used` set of `simple_dce`). -/
def usedVars (lm : List (String × List Instr)) : List String :=
  lm.flatMap (fun p => p.2.flatMap get_args)

/-- One full pass of `simple_dce`: keep an instruction iff it has no
destination or its destination is in `used`. -/
def dcePass (lm : List (String × List Instr)) : List (String × List Instr) :=
  lm.map (fun p => (p.1, p.2.filter (fun i =>
    match get_dest i with
    | none => true
    | some d => decide (d ∈ usedVars lm))))

/-- The `while repeat` loop of `simple_dce`, with explicit fuel. -/
def simpleDceGo : Nat → List (String × List Instr) → List (String × List Instr)
  | 0, lm => lm
  | fuel + 1, lm =>
      let lm' := dcePass lm
      if lm' = lm then lm else simpleDceGo fuel lm'

/-- Total number of instructions in the function. -/
def totalLen (lm : List (String × List Instr)) : Nat :=
  (lm.map (fun p => p.2.length)).sum

/-- `simple_dce`: repeat the global pass to a fixed point (the loop runs at
most `totalLen + 1` times since a non-final pass removes an instruction). -/
def simple_dce (blks : BlockInfo) : BlockInfo :=
  { blks with label_map := simpleDceGo (totalLen blks.label_map + 1) blks.label_map }

/-- Mutable state of one `local_dce` scan: the (shrinking) block, the
candidate map and the progress flag. -/
structure LDState where
  block : List Instr
  candidates : List (String × Instr)
  rep : Bool
deriving DecidableEq, Repr

/-- `block.remove(x)`: drop the first element equal to `x`. -/
def removeFirst (x : Instr) : List Instr → List Instr
  | [] => []
  | y :: rest => if y = x then rest else y :: removeFirst x rest

/-- Per-instruction step of a `local_dce` scan: reads kill candidates, then a
redefinition removes the overwritten candidate from the block, then the
instruction becomes the candidate for its destination. -/
def ld_step (s : LDState) (i : Instr) : LDState :=
  let cands := (get_args i).foldl (fun m a => dremove a m) s.candidates
  match get_dest i with
  | none => { s with candidates := cands }
  | some d =>
      match dlookup d cands with
      | some cand =>
          { block := removeFirst cand s.block
            candidates := dinsert d i cands
            rep := true }
      | none => { s with candidates := dinsert d i cands }

/-- One scan of `local_dce` over a snapshot of the block. -/
def localDceScan (block : List Instr) : List Instr × Bool :=
  let s := block.foldl ld_step ⟨block, [], false⟩
  (s.block, s.rep)

/-- The `while repeat` loop of `local_dce`, with explicit fuel. -/
def localDceGo : Nat → List Instr → List Instr
  | 0, b => b
  | fuel + 1, b =>
      let r := localDceScan b
      if r.2 then localDceGo fuel r.1 else r.1

/-- `local_dce`: repeat scans to a fixed point. -/
def local_dce (b : List Instr) : List Instr := localDceGo (b.length + 1) b

/-! ### Local value numbering (`passes/lvn.py`) -/

/-- One operand encoding in an LVN expression key: `("c", literal)` or
`("v", value_id)`. -/
inductive Operand where
  | c (v : Int)
  | v (i : Nat)
deriving DecidableEq, Repr

/-- Python tuple order on operand encodings: every `("c", _)` sorts before
every `("v", _)` (string comparison of the tags), ties broken by the payload. -/
def oLe : Operand → Operand → Bool
  | Operand.c x, Operand.c y => x ≤ y
  | Operand.c _, Operand.v _ => true
  | Operand.v _, Operand.c _ => false
  | Operand.v i, Operand.v j => i ≤ j

/-- Insert into a sorted operand list. -/
def insertOp (x : Operand) : List Operand → List Operand
  | [] => [x]
  | y :: rest => if oLe x y then x :: y :: rest else y :: insertOp x rest

/-- `sorted(keys)` over operand encodings. -/
def sortOps : List Operand → List Operand
  | [] => []
  | x :: rest => insertOp x (sortOps rest)

/-- An LVN expression key: operation name plus operand encodings. -/
def LVNExpr := String × List Operand
deriving instance DecidableEq, Repr for LVNExpr

/-- The value-numbering table (`LVNTable` dataclass). -/
structure LVNTable where
  expr2id : List (LVNExpr × Nat) := []
  id2canon : List (Nat × String) := []
  current_status : List (String × Nat) := []
  next_id : Nat := 0
deriving DecidableEq, Repr

/-- `_ensure_var_id`: current value number of `var`, allocating a fresh id
(and a canonical-name default) on first sighting. -/
def ensure_var_id (var : String) (lvn : LVNTable) : Nat × LVNTable :=
  match dlookup var lvn.current_status with
  | some vid => (vid, lvn)
  | none =>
      let vid := lvn.next_id
      (vid, { lvn with
                next_id := lvn.next_id + 1
                current_status := dinsert var vid lvn.current_status
                id2canon := setdefault vid var lvn.id2canon })

/-- Encode each argument as `("v", id)`, left to right
(the generator expression inside `_get_expr`). -/
def encodeArgs (args : List String) (lvn : LVNTable) : List Operand × LVNTable :=
  match args with
  | [] => ([], lvn)
  | a :: rest =>
      let r := ensure_var_id a lvn
      let r' := encodeArgs rest r.2
      (Operand.v r.1 :: r'.1, r'.2)

/-- `_get_expr`: build the hashable expression key, sorting the operand
encodings for commutative operations; unsupported operations fail.
A `const` lacking its literal and an `id` lacking its argument fail like the
source's hard dictionary/index accesses. -/
def get_expr (op : String) (instr : Instr) (lvn : LVNTable) :
    Except String (LVNExpr × LVNTable) :=
  if op = "const" then
    match instr.value with
    | some v => Except.ok ((op, [Operand.c v]), lvn)
    | none => Except.error "value"
  else if op = "id" then
    match instr.args with
    | src :: _ =>
        let r := ensure_var_id src lvn
        Except.ok ((op, [Operand.v r.1]), r.2)
    | [] => Except.error "index"
  else if op ∈ ["add", "mul", "sub", "div", "print"] then
    let r := encodeArgs instr.args lvn
    let keys := if op ∈ COMMUTATIVE then sortOps r.1 else r.1
    Except.ok ((op, keys), r.2)
  else Except.error ("Unsupported operation for LVN: " ++ op)

/-- The argument-canonicalization loop of `local_value_numbering`: rewrite an
argument to the canonical variable of its value number when that variable
still holds the number (`lvn.id2canon.get(vid) or a` treats the empty string
as falsy, like Python's `or`). -/
def canonArgs (args : List String) (lvn : LVNTable) : List String × LVNTable :=
  match args with
  | [] => ([], lvn)
  | a :: rest =>
      let r := ensure_var_id a lvn
      let canon := match dlookup r.1 r.2.id2canon with
                   | some c => if c = "" then a else c
                   | none => a
      let newArg := if canon ≠ a ∧ dlookup canon r.2.current_status = some r.1
                    then canon else a
      let r' := canonArgs rest r.2
      (newArg :: r'.1, r'.2)

/-- The `op == "id"` branch of `local_value_numbering` for an instruction
with a destination: bind the destination directly to the (post-rewrite)
source's value number; a missing argument fails like the source's
`instr["args"][0]`. -/
def idStep (i1 : Instr) (dest : String) (lvn1 : LVNTable) :
    Except (Instr × String) (Instr × LVNTable) :=
  match i1.args with
  | src :: _ =>
      let rs := ensure_var_id src lvn1
      let lvn2 := rs.2
      let canon := (dlookup rs.1 lvn2.id2canon).getD src
      let i2 := if dlookup canon lvn2.current_status = some rs.1
                then { i1 with args := [canon] } else i1
      Except.ok (i2, { lvn2 with
        current_status := dinsert dest rs.1 lvn2.current_status
        id2canon := setdefault rs.1 canon lvn2.id2canon })
  | [] => Except.error (i1, "index")

/-- The expression-memoization branch of `local_value_numbering`: build the
key, then either allocate a fresh value number or CSE-rewrite the
instruction into a copy of the canonical variable when that variable still
holds the memoized number. -/
def cseStep (op : String) (i1 : Instr) (dest : String) (lvn1 : LVNTable) :
    Except (Instr × String) (Instr × LVNTable) :=
  match get_expr op i1 lvn1 with
  | Except.error e => Except.error (i1, e)
  | Except.ok (expr, lvn2) =>
      match dlookup expr lvn2.expr2id with
      | none =>
          let expr_id := lvn2.next_id
          Except.ok (i1, { lvn2 with
            next_id := lvn2.next_id + 1
            expr2id := dinsert expr expr_id lvn2.expr2id
            current_status := dinsert dest expr_id lvn2.current_status
            id2canon := dinsert expr_id dest lvn2.id2canon })
      | some expr_id =>
          let canon_var := (dlookup expr_id lvn2.id2canon).getD ""
          let i2 := if dlookup canon_var lvn2.current_status = some expr_id
                    then { i1 with op := some "id", args := [canon_var] }
                    else i1
          Except.ok (i2, { lvn2 with
            current_status := dinsert dest expr_id lvn2.current_status })

/-- Processing of one instruction by `local_value_numbering`: skip labels and
terminators, canonicalize arguments, then copy-propagate `id` or memoize the
expression key (CSE).  An error carries the instruction as already mutated
(arguments rewritten) at the moment the source raises. -/
def processInstr (i : Instr) (lvn : LVNTable) :
    Except (Instr × String) (Instr × LVNTable) :=
  match i.op with
  | none => Except.ok (i, lvn)
  | some op =>
      if op ∈ TERMINATORS then Except.ok (i, lvn)
      else
        let rc := canonArgs i.args lvn
        let i1 : Instr := { i with args := rc.1 }
        match i1.dest with
        | none => Except.ok (i1, rc.2)
        | some dest =>
            if op = "id" then idStep i1 dest rc.2
            else cseStep op i1 dest rc.2

/-- The instruction loop of `local_value_numbering`.  On an exception the
instructions already processed keep their rewrites, the failing instruction
keeps its argument rewrite, and the rest of the block is untouched. -/
def lvnGo (lvn : LVNTable) : List Instr → List Instr × Option String
  | [] => ([], none)
  | i :: rest =>
      match processInstr i lvn with
      | Except.ok (i', lvn') =>
          let r := lvnGo lvn' rest
          (i' :: r.1, r.2)
      | Except.error (i', msg) => (i' :: rest, some msg)

/-- `local_value_numbering`: the block after LVN, plus the error message if
the pass raised partway through. -/
def local_value_numbering (block : List Instr) : List Instr × Option String :=
  lvnGo {} block

/-! ### CFG construction (`form_cfg` in `cfg.py`) -/

/-- The `op` of a block's last instruction
(`(block[-1] if block else {}).get("op")`). -/
def lastOp (block : List Instr) : Option String :=
  match block.getLast? with
  | none => none
  | some i => i.op

/-- Resolve each target label through `label_to_block_id`, left to right,
failing on the first label with no entry (the list comprehension
`[blks.label_to_block_id[t] for t in last_instr["labels"]]`). -/
def resolveAll (ltbi : List (String × String)) : List String → Except String (List String)
  | [] => Except.ok []
  | t :: ts =>
      match dlookup t ltbi with
      | some bid =>
          match resolveAll ltbi ts with
          | Except.ok rest => Except.ok (bid :: rest)
          | Except.error e => Except.error e
      | none => Except.error t

/-- Successor targets of one block: `jmp`/`br` resolve each target label
through `label_to_block_id` (an unresolved label is the fatal error), `ret`
has none, anything else falls through to the next block in stream order. -/
def blockTargets (blks : BlockInfo) (labels : List String) (idx : Nat)
    (label : String) : Except String (List String) :=
  let block := (dlookup label blks.label_map).getD []
  let op := lastOp block
  if op = some "jmp" ∨ op = some "br" then
    (match block.getLast? with
     | some i => resolveAll blks.label_to_block_id i.labels
     | none => Except.ok [])
  else if op = some "ret" then Except.ok []
  else
    Except.ok (match labels.get? (idx + 1) with
               | some nxt => [nxt]
               | none => [])

/-- The `for idx, label in enumerate(labels)` loop of `form_cfg`, threading
the successor and predecessor maps. -/
def cfgFold (blks : BlockInfo) (labels : List String) :
    List (Nat × String) → List (String × List String) → List (String × List String) →
    Except String (List (String × List String) × List (String × List String))
  | [], succ, pred => Except.ok (succ, pred)
  | (idx, label) :: rest, succ, pred =>
      match blockTargets blks labels idx label with
      | Except.error e => Except.error e
      | Except.ok targets =>
          cfgFold blks labels rest (dinsert label targets succ)
            (targets.foldl (fun m t => dappend t label m) pred)

/-- `form_cfg`: populate successors/predecessors (overwriting prior CFG
state), then give every block an explicit empty entry in both maps. -/
def form_cfg (blks : BlockInfo) : Except String BlockInfo :=
  let labels := dkeys blks.label_map
  match cfgFold blks labels labels.enum [] [] with
  | Except.error e => Except.error e
  | Except.ok r =>
      Except.ok { blks with
        successors := labels.foldl (fun m l => setdefault l [] m) r.1
        predecessors := labels.foldl (fun m l => setdefault l [] m) r.2 }

/-! ### Derived checkers and proof-level views of the algorithms -/

/-- The edge sequence stored for `k` (an absent key reads as empty). -/
def edgeList (m : List (String × List String)) (k : String) : List String :=
  (dlookup k m).getD []

/-- A block whose last instruction is a `jmp`/`br` with a target label that
has no entry in `label_to_block_id` (the condition on which `form_cfg`'s
label resolution fails). -/
def unresolvedIn (blks : BlockInfo) (block : List Instr) : Bool :=
  match block.getLast? with
  | some i =>
      (decide (i.op = some "jmp") || decide (i.op = some "br")) &&
      i.labels.any (fun t => (dlookup t blks.label_to_block_id).isNone)
  | none => false

/-- The per-instruction failure condition of `local_value_numbering`: a
destination-carrying, non-terminator instruction whose operation is outside
`{const, id, add, mul, sub, div, print}`, or a malformed `const`/`id` whose
hard field access (`instr["value"]`, `instr["args"][0]`) fails. -/
def lvnFailB (i : Instr) : Bool :=
  match i.op with
  | some op =>
      i.dest.isSome && decide (op ∉ TERMINATORS) &&
      (decide (op = "const" ∧ i.value = none) ||
       decide (op = "id" ∧ i.args = []) ||
       decide (op ∉ ["const", "id", "add", "mul", "sub", "div", "print"]))
  | none => false

/-- Pure view of the segmentation `form_blocks` performs: the (pending label,
instructions) pairs of the blocks it materializes, in stream order, with
empty accumulators discarded. -/
def segs : Option String → List Instr → List Instr → List (Option String × List Instr)
  | pending, acc, [] => if acc = [] then [] else [(pending, acc)]
  | pending, acc, i :: rest =>
      if is_label i then
        (if acc = [] then [] else [(pending, acc)]) ++ segs i.label [] rest
      else
        if isTerm i then (pending, acc ++ [i]) :: segs none [] rest
        else segs pending (acc ++ [i]) rest

/-- Number of label-less segments (each consumes one synthetic identifier). -/
def countNone : List (Option String × List Instr) → Nat
  | [] => 0
  | (some _, _) :: rest => countNone rest
  | (none, _) :: rest => countNone rest + 1

/-- The block identifiers `form_blocks` assigns to a segment list, threading
the synthetic-name counter. -/
def segKeys (name : String) : Nat → List (Option String × List Instr) → List (String × List Instr)
  | _, [] => []
  | g, (some l, b) :: rest => (name ++ "::" ++ l, b) :: segKeys name g rest
  | g, (none, b) :: rest => (name ++ "::b" ++ toString g, b) :: segKeys name (g + 1) rest

/-- The `label_to_block_id` entries a segment list produces. -/
def segLtbi (name : String) : List (Option String × List Instr) → List (String × String)
  | [] => []
  | (some l, _) :: rest => (l, name ++ "::" ++ l) :: segLtbi name rest
  | (none, _) :: rest => segLtbi name rest

/-- The label names of the label markers of an instruction stream. -/
def labelsOf (body : List Instr) : List String :=
  body.filterMap (fun i => if is_label i then i.label else none)

/-- Whether a block's last instruction is a terminator. -/
def endsInTermB (b : List Instr) : Bool :=
  match b.getLast? with
  | some i => isTerm i
  | none => false

/-- Decimal digit list of a natural number, most significant first (pure
counterpart of `Nat.toDigitsCore`). -/
def decDigits (n : Nat) : List Char :=
  if n / 10 = 0 then [Nat.digitChar (n % 10)]
  else decDigits (n / 10) ++ [Nat.digitChar (n % 10)]
decreasing_by omega

/-- Numeric value of a decimal digit character. -/
def charDigitVal (c : Char) : Nat := c.toNat - 48

/-- Decode a most-significant-first decimal digit list. -/
def undigits (ds : List Char) : Nat :=
  ds.foldl (fun acc c => acc * 10 + charDigitVal c) 0

/-- The labels of the labeled segments, in order. -/
def labelsOfSegs (S : List (Option String × List Instr)) : List String :=
  S.filterMap Prod.fst

/-- The instruction run a segment contributes to the re-linearized stream:
its label marker (if labeled) followed by its instructions. -/
def emitSeg (p : Option String × List Instr) : List Instr :=
  (match p.1 with
   | some l => [mkLabel l]
   | none => []) ++ p.2

/-! ### Concrete instructions for the scenario claims -/

/-- `d = const v`. -/
def constI (d : String) (v : Int) : Instr :=
  { op := some "const", dest := some d, value := some v }

/-- `print a`. -/
def printI (a : String) : Instr := { op := some "print", args := [a] }

/-- `d = add a b`. -/
def addI (d a b : String) : Instr :=
  { op := some "add", dest := some d, args := [a, b] }

/-- `d = id a`. -/
def idI (d a : String) : Instr := { op := some "id", dest := some d, args := [a] }

/-- `jmp l`. -/
def jmpI (l : String) : Instr := { op := some "jmp", labels := [l] }

/-- `ret`. -/
def retI : Instr := { op := some "ret" }

/-- `{op: "foo", dest: "x", args: ["y"]}` from the unsupported-operation
scenario. -/
def fooI : Instr := { op := some "foo", dest := some "x", args := ["y"] }

/-! ### Dictionary lemmas -/

theorem dlookup_dinsert_self [DecidableEq κ] (k : κ) (v : α) (m : List (κ × α)) :
    dlookup k (dinsert k v m) = some v := by
  induction m with
  | nil => simp [dinsert, dlookup]
  | cons p rest ih =>
      obtain ⟨k', v'⟩ := p
      by_cases h : k' = k
      · simp [dinsert, h, dlookup]
      · simp [dinsert, h, dlookup, ih]

theorem dlookup_dinsert_ne [DecidableEq κ] (k k' : κ) (v : α) (m : List (κ × α))
    (h : k' ≠ k) : dlookup k' (dinsert k v m) = dlookup k' m := by
  induction m with
  | nil => simp [dinsert, dlookup, Ne.symm h]
  | cons p rest ih =>
      obtain ⟨k0, v0⟩ := p
      by_cases h0 : k0 = k
      · subst h0
        simp [dinsert, dlookup, Ne.symm h]
      · by_cases h1 : k0 = k'
        · subst h1
          simp [dinsert, h0, dlookup]
        · simp [dinsert, h0, dlookup, h1, ih]

theorem dlookup_dinsert_isSome [DecidableEq κ] (k k' : κ) (v : α) (m : List (κ × α))
    (h : (dlookup k' m).isSome = true) :
    (dlookup k' (dinsert k v m)).isSome = true := by
  by_cases hk : k' = k
  · subst hk; simp [dlookup_dinsert_self]
  · rw [dlookup_dinsert_ne _ _ _ _ hk]; exact h

theorem dinsert_of_not_mem [DecidableEq κ] (k : κ) (v : α) (m : List (κ × α))
    (h : k ∉ dkeys m) : dinsert k v m = m ++ [(k, v)] := by
  induction m with
  | nil => simp [dinsert]
  | cons p rest ih =>
      obtain ⟨k0, v0⟩ := p
      simp only [dkeys, List.map_cons, List.mem_cons] at h
      push_neg at h
      simp [dinsert, Ne.symm h.1, ih (by simpa [dkeys] using h.2)]

theorem dlookup_append_left [DecidableEq κ] (k : κ) (m m' : List (κ × α))
    (h : (dlookup k m).isSome = true) :
    dlookup k (m ++ m') = dlookup k m := by
  induction m with
  | nil => simp [dlookup] at h
  | cons p rest ih =>
      obtain ⟨k0, v0⟩ := p
      by_cases hk : k0 = k
      · simp [dlookup, hk]
      · simp only [dlookup, hk, if_false] at h
        simpa [dlookup, hk] using ih h

theorem dlookup_append_right [DecidableEq κ] (k : κ) (m m' : List (κ × α))
    (h : dlookup k m = none) :
    dlookup k (m ++ m') = dlookup k m' := by
  induction m with
  | nil => simp
  | cons p rest ih =>
      obtain ⟨k0, v0⟩ := p
      by_cases hk : k0 = k
      · simp [dlookup, hk] at h
      · simp only [dlookup, hk, if_false] at h
        simpa [dlookup, hk] using ih h

theorem dlookup_none_of_not_mem [DecidableEq κ] (k : κ) (m : List (κ × α))
    (h : k ∉ dkeys m) : dlookup k m = none := by
  induction m with
  | nil => simp [dlookup]
  | cons p rest ih =>
      obtain ⟨k0, v0⟩ := p
      simp only [dkeys, List.map_cons, List.mem_cons] at h
      push_neg at h
      simp [dlookup, Ne.symm h.1, ih (by simpa [dkeys] using h.2)]

theorem mem_keys_of_dlookup [DecidableEq κ] (k : κ) (v : α) (m : List (κ × α))
    (h : dlookup k m = some v) : k ∈ dkeys m := by
  by_contra hc
  rw [dlookup_none_of_not_mem k m hc] at h
  exact Option.noConfusion h

theorem dlookup_isSome_of_mem_keys [DecidableEq κ] (k : κ) (m : List (κ × α))
    (h : k ∈ dkeys m) : (dlookup k m).isSome = true := by
  induction m with
  | nil => simp [dkeys] at h
  | cons p rest ih =>
      obtain ⟨k0, v0⟩ := p
      by_cases hk : k0 = k
      · simp [dlookup, hk]
      · simp only [dkeys, List.map_cons, List.mem_cons] at h
        rcases h with h | h
        · exact absurd h.symm hk
        · simp only [dlookup, hk, if_false]
          exact ih (by simpa [dkeys] using h)

theorem dlookup_of_mem_nodup [DecidableEq κ] (k : κ) (v : α) (m : List (κ × α))
    (hnd : (dkeys m).Nodup) (h : (k, v) ∈ m) : dlookup k m = some v := by
  induction m with
  | nil => simp at h
  | cons p rest ih =>
      obtain ⟨k0, v0⟩ := p
      simp only [dkeys, List.map_cons, List.nodup_cons] at hnd
      rcases List.mem_cons.mp h with heq | hmem
      · have h1 : k = k0 ∧ v = v0 := by simpa using heq
        obtain ⟨rfl, rfl⟩ := h1
        simp [dlookup]
      · have hk : k0 ≠ k := by
          rintro rfl
          exact hnd.1 (by simpa using List.mem_map_of_mem Prod.fst hmem)
        simp only [dlookup, hk, if_false]
        exact ih (by simpa [dkeys] using hnd.2) hmem

theorem mem_of_dlookup [DecidableEq κ] (k : κ) (v : α) (m : List (κ × α))
    (h : dlookup k m = some v) : (k, v) ∈ m := by
  induction m with
  | nil => simp [dlookup] at h
  | cons p rest ih =>
      obtain ⟨k0, v0⟩ := p
      by_cases hk : k0 = k
      · subst hk
        simp only [dlookup, if_pos rfl] at h
        obtain rfl := Option.some_inj.mp h
        exact List.mem_cons_self _ _
      · simp only [dlookup, hk, if_false] at h
        exact List.mem_cons_of_mem _ (ih h)

theorem dkeys_dinsert_mem [DecidableEq κ] (k : κ) (v : α) (m : List (κ × α))
    (h : k ∈ dkeys m) : dkeys (dinsert k v m) = dkeys m := by
  induction m with
  | nil => simp [dkeys] at h
  | cons p rest ih =>
      obtain ⟨k0, v0⟩ := p
      by_cases hk : k0 = k
      · simp [dinsert, hk, dkeys]
      · have h' : k ∈ dkeys rest := by
          simp only [dkeys, List.map_cons, List.mem_cons] at h
          rcases h with h | h
          · exact absurd h.symm hk
          · simpa [dkeys] using h
        have hrest := ih h'
        simp only [dkeys] at hrest
        simp [dinsert, hk, dkeys, hrest]

theorem dkeys_dinsert_not_mem [DecidableEq κ] (k : κ) (v : α) (m : List (κ × α))
    (h : k ∉ dkeys m) : dkeys (dinsert k v m) = dkeys m ++ [k] := by
  rw [dinsert_of_not_mem k v m h]
  simp [dkeys]

theorem dkeys_dinsert_nodup [DecidableEq κ] (k : κ) (v : α) (m : List (κ × α))
    (h : (dkeys m).Nodup) : (dkeys (dinsert k v m)).Nodup := by
  by_cases hk : k ∈ dkeys m
  · rw [dkeys_dinsert_mem k v m hk]; exact h
  · rw [dkeys_dinsert_not_mem k v m hk]
    exact List.Nodup.append h (List.nodup_singleton k)
      (fun a ha hb => hk ((List.mem_singleton.mp hb) ▸ ha))

/-! ### Claim C6: empty accumulator blocks are discarded -/

/-- C6: in `form_blocks`, an accumulator block that is empty at the moment it
closes is discarded — `close_block` is the identity on an empty accumulator,
so no block is materialized and the pending label gets no map entry.  In
particular a label immediately followed by another label yields no block and
no `label_to_block_id` entry for the first label, and a trailing label is
likewise dropped. -/
theorem empty_block_discarded :
    (∀ (name : String) (s : FBState), s.current_block = [] → close_block name s = s) ∧
    (form_blocks [mkLabel "a", mkLabel "b", retI] "f").label_to_block_id = [("b", "f::b")] ∧
    (form_blocks [mkLabel "a", mkLabel "b", retI] "f").label_map = [("f::b", [retI])] ∧
    (form_blocks [constI "x" 1, mkLabel "z"] "f").label_to_block_id = [] ∧
    (form_blocks [constI "x" 1, mkLabel "z"] "f").label_map = [("f::b0", [constI "x" 1])] := by
  refine ⟨?_, by decide, by decide, by decide, by decide⟩
  intro name s h
  simp [close_block, h]

/-- Witness for C6: the general discard clause applied to a concrete state
with a pending label and an empty accumulator. -/
theorem empty_block_discarded_witness :
    close_block "f" ⟨[], [], 0, [], some "a"⟩ = ⟨[], [], 0, [], some "a"⟩ :=
  empty_block_discarded.1 "f" ⟨[], [], 0, [], some "a"⟩ rfl

/-! ### Claim C5: local DCE removes the overwritten dead store -/

/-- C5: `local_dce` on `[x = const 1; x = const 2; print x]` removes exactly
the first assignment (overwritten before any read) and keeps the second,
which `print` reads. -/
theorem local_dce_dead_store :
    local_dce [constI "x" 1, constI "x" 2, printI "x"] = [constI "x" 2, printI "x"] := by
  decide

/-! ### Claim C4: commutative expression keys -/

theorem oLe_total (p q : Operand) : oLe p q = true ∨ oLe q p = true := by
  cases p <;> cases q <;> simp [oLe] <;> omega

theorem oLe_antisymm (p q : Operand) (h1 : oLe p q = true) (h2 : oLe q p = true) :
    p = q := by
  cases p <;> cases q <;> simp [oLe] at h1 h2 ⊢ <;> omega

theorem sortOps_pair_comm (p q : Operand) : sortOps [p, q] = sortOps [q, p] := by
  by_cases hpq : oLe p q = true
  · by_cases hqp : oLe q p = true
    · rw [oLe_antisymm p q hpq hqp]
    · simp [sortOps, insertOp, hpq, hqp]
  · rcases oLe_total p q with h | h
    · exact absurd h hpq
    · simp [sortOps, insertOp, hpq, h]

theorem encode_pair_swap (a b : String) (lvn : LVNTable) :
    sortOps (encodeArgs [a, b] lvn).1 = sortOps (encodeArgs [b, a] lvn).1 := by
  by_cases hab : a = b
  · subst hab; rfl
  · cases ha : dlookup a lvn.current_status with
    | some ia =>
        cases hb : dlookup b lvn.current_status with
        | some ib =>
            simp only [encodeArgs, ensure_var_id, ha, hb]
            exact sortOps_pair_comm _ _
        | none =>
            have hsecond : dlookup a (dinsert b lvn.next_id lvn.current_status) = some ia := by
              rw [dlookup_dinsert_ne _ _ _ _ hab]; exact ha
            simp only [encodeArgs, ensure_var_id, ha, hb, hsecond]
            exact sortOps_pair_comm _ _
    | none =>
        cases hb : dlookup b lvn.current_status with
        | some ib =>
            have hsecond : dlookup b (dinsert a lvn.next_id lvn.current_status) = some ib := by
              rw [dlookup_dinsert_ne _ _ _ _ (Ne.symm hab)]; exact hb
            simp only [encodeArgs, ensure_var_id, ha, hb, hsecond]
            exact sortOps_pair_comm _ _
        | none =>
            have h2a : dlookup b (dinsert a lvn.next_id lvn.current_status) = none := by
              rw [dlookup_dinsert_ne _ _ _ _ (Ne.symm hab)]; exact hb
            have h2b : dlookup a (dinsert b lvn.next_id lvn.current_status) = none := by
              rw [dlookup_dinsert_ne _ _ _ _ hab]; exact ha
            simp only [encodeArgs, ensure_var_id, ha, hb, h2a, h2b]

/-- C4: the LVN expression key for a commutative operation (`add`/`mul`)
applied to `(a, b)` in a table state equals the key for `(b, a)` in the same
state; and on `[x = const 4; y = const 4; z = add x y; w = add y x]`,
`local_value_numbering` rewrites the second addition into `w = id z` (the
second `const` is itself CSE-rewritten to `y = id x`, keeping its stale
`value` field, and `z`'s arguments are canonicalized to `x x`). -/
theorem lvn_commutative_key (op a b : String) (lvn : LVNTable)
    (hop : op ∈ COMMUTATIVE) :
    (Except.map Prod.fst (get_expr op { op := some op, args := [a, b] } lvn) =
      Except.map Prod.fst (get_expr op { op := some op, args := [b, a] } lvn)) ∧
    local_value_numbering [constI "x" 4, constI "y" 4, addI "z" "x" "y", addI "w" "y" "x"] =
      ([constI "x" 4, { idI "y" "x" with value := some 4 }, addI "z" "x" "x", idI "w" "z"],
        none) := by
  constructor
  · have hops : op = "add" ∨ op = "mul" := by simpa [COMMUTATIVE] using hop
    have hconst : ¬(op = "const") := by rcases hops with rfl | rfl <;> decide
    have hid : ¬(op = "id") := by rcases hops with rfl | rfl <;> decide
    have hsupp : op ∈ ["add", "mul", "sub", "div", "print"] := by
      rcases hops with rfl | rfl <;> decide
    simp only [get_expr, hconst, hid, hsupp, hop, if_false, if_true, Except.map]
    rw [encode_pair_swap]
  · decide

/-- Witness for C4: the key equality at `op = "add"`, two fresh variables and
the empty table. -/
theorem lvn_commutative_key_witness :
    Except.map Prod.fst (get_expr "add" { op := some "add", args := ["p", "q"] } {}) =
      Except.map Prod.fst (get_expr "add" { op := some "add", args := ["q", "p"] } {}) :=
  (lvn_commutative_key "add" "p" "q" {} (by decide)).1

/-! ### Claim C1: global DCE leaves only used destinations -/

theorem filterEntries_len_le (pr : Instr → Bool) (lm : List (String × List Instr)) :
    totalLen (lm.map (fun p => (p.1, p.2.filter pr))) ≤ totalLen lm := by
  induction lm with
  | nil => simp [totalLen]
  | cons p rest ih =>
      simp only [totalLen, List.map_cons, List.sum_cons] at ih ⊢
      exact Nat.add_le_add (List.length_filter_le pr p.2) ih

theorem filterEntries_eq_of_len (pr : Instr → Bool) (lm : List (String × List Instr))
    (h : totalLen (lm.map (fun p => (p.1, p.2.filter pr))) = totalLen lm) :
    lm.map (fun p => (p.1, p.2.filter pr)) = lm := by
  induction lm with
  | nil => rfl
  | cons p rest ih =>
      simp only [totalLen, List.map_cons, List.sum_cons] at h
      have hle1 := List.length_filter_le pr p.2
      have hle2 := filterEntries_len_le pr rest
      simp only [totalLen] at hle2
      have h1 : (p.2.filter pr).length = p.2.length := by omega
      have h2 : totalLen (rest.map (fun p => (p.1, p.2.filter pr))) = totalLen rest := by
        simp only [totalLen]; omega
      have hf : p.2.filter pr = p.2 :=
        List.Sublist.eq_of_length (p.2.filter_sublist) h1
      simp [hf, ih h2]

theorem dcePass_totalLen_le (lm : List (String × List Instr)) :
    totalLen (dcePass lm) ≤ totalLen lm :=
  filterEntries_len_le _ lm

theorem dcePass_eq_of_totalLen (lm : List (String × List Instr))
    (h : totalLen (dcePass lm) = totalLen lm) : dcePass lm = lm :=
  filterEntries_eq_of_len _ lm h

theorem simpleDceGo_fix (fuel : Nat) : ∀ lm, totalLen lm < fuel →
    dcePass (simpleDceGo fuel lm) = simpleDceGo fuel lm := by
  induction fuel with
  | zero => intro lm h; omega
  | succ f ih =>
      intro lm h
      simp only [simpleDceGo]
      by_cases heq : dcePass lm = lm
      · rw [if_pos heq]; exact heq
      · rw [if_neg heq]
        apply ih
        have hle := dcePass_totalLen_le lm
        have hne : totalLen (dcePass lm) ≠ totalLen lm :=
          fun hc => heq (dcePass_eq_of_totalLen lm hc)
        omega

theorem list_map_eq_self_mem {α : Type} {f : α → α} :
    ∀ {l : List α}, l.map f = l → ∀ x ∈ l, f x = x := by
  intro l
  induction l with
  | nil => intro _ x hx; simp at hx
  | cons a rest ih =>
      intro h x hx
      simp only [List.map_cons, List.cons.injEq] at h
      rcases List.mem_cons.mp hx with rfl | hx
      · exact h.1
      · exact ih h.2 x hx

/-- C1: once `simple_dce` has converged, every instruction remaining in any
block whose destination is defined has that destination read as an argument
by some instruction remaining in the function's blocks. -/
theorem simple_dce_used (blks : BlockInfo) (k : String) (blk : List Instr)
    (i : Instr) (d : String)
    (hmem : (k, blk) ∈ (simple_dce blks).label_map)
    (hi : i ∈ blk) (hd : get_dest i = some d) :
    d ∈ usedVars (simple_dce blks).label_map := by
  have hfix : dcePass (simple_dce blks).label_map = (simple_dce blks).label_map := by
    show dcePass (simpleDceGo (totalLen blks.label_map + 1) blks.label_map) = _
    exact simpleDceGo_fix _ _ (by omega)
  have hentry := list_map_eq_self_mem hfix (k, blk) hmem
  have hfilter : blk.filter (fun j =>
      match get_dest j with
      | none => true
      | some d' => decide (d' ∈ usedVars (simple_dce blks).label_map)) = blk := by
    have := congrArg Prod.snd hentry
    simpa using this
  have hpred := List.filter_eq_self.mp hfilter i hi
  rw [hd] at hpred
  exact of_decide_eq_true hpred

/-- Witness for C1: a block whose surviving `const` feeds a surviving
`print`. -/
theorem simple_dce_used_witness :
    "x" ∈ usedVars (simple_dce (form_blocks [constI "x" 1, printI "x"] "f")).label_map :=
  simple_dce_used (form_blocks [constI "x" 1, printI "x"] "f") "f::b0"
    [constI "x" 1, printI "x"] (constI "x" 1) "x" (by decide) (by decide) rfl

/-! ### Claim C9: when local value numbering fails -/

theorem canonArgs_cons (a : String) (rest : List String) (lvn : LVNTable) :
    (canonArgs (a :: rest) lvn).1 ≠ [] := by
  simp [canonArgs]

theorem get_expr_isOk (op : String) (i : Instr) (lvn : LVNTable) :
    (get_expr op i lvn).isOk =
      !(decide (op = "const" ∧ i.value = none) ||
        decide (op = "id" ∧ i.args = []) ||
        decide (op ∉ ["const", "id", "add", "mul", "sub", "div", "print"])) := by
  by_cases hc : op = "const"
  · subst hc
    cases hv : i.value <;> simp [get_expr, hv, Except.isOk, Except.toBool]
  · by_cases hi : op = "id"
    · subst hi
      cases ha : i.args <;> simp [get_expr, ha, Except.isOk, Except.toBool]
    · by_cases hs : op ∈ ["add", "mul", "sub", "div", "print"]
      · have h7 : op ∈ ["const", "id", "add", "mul", "sub", "div", "print"] := by
          simp only [List.mem_cons, List.mem_singleton] at hs ⊢
          tauto
        simp [get_expr, hc, hi, hs, h7, Except.isOk, Except.toBool]
      · have h7 : op ∉ ["const", "id", "add", "mul", "sub", "div", "print"] := by
          simp only [List.mem_cons, List.mem_singleton] at hs ⊢
          tauto
        simp [get_expr, hc, hi, hs, h7, Except.isOk, Except.toBool]

theorem cseStep_isOk (op : String) (i1 : Instr) (dest : String) (lvn1 : LVNTable) :
    (cseStep op i1 dest lvn1).isOk = (get_expr op i1 lvn1).isOk := by
  cases hE : get_expr op i1 lvn1 with
  | error e => simp [cseStep, hE, Except.isOk, Except.toBool]
  | ok q =>
      obtain ⟨expr, lvn2⟩ := q
      simp only [cseStep, hE]
      cases hdl : dlookup expr lvn2.expr2id <;>
        simp [hdl, Except.isOk, Except.toBool]

theorem idStep_isOk (i1 : Instr) (dest : String) (lvn1 : LVNTable) :
    (idStep i1 dest lvn1).isOk = !(decide (i1.args = [])) := by
  cases ha : i1.args <;> simp [idStep, ha, Except.isOk, Except.toBool]

theorem processInstr_isOk (i : Instr) (lvn : LVNTable) :
    (processInstr i lvn).isOk = !lvnFailB i := by
  cases hop : i.op with
  | none => simp [processInstr, lvnFailB, hop, Except.isOk, Except.toBool]
  | some op =>
      by_cases hterm : op ∈ TERMINATORS
      · simp [processInstr, lvnFailB, hop, hterm, Except.isOk, Except.toBool]
      · cases hdest : i.dest with
        | none =>
            simp [processInstr, lvnFailB, hop, hterm, hdest, Except.isOk, Except.toBool]
        | some dest =>
            have hargs : ((canonArgs i.args lvn).1 = []) ↔ (i.args = []) := by
              cases ha : i.args <;> simp [canonArgs, ha]
            by_cases hid : op = "id"
            · subst hid
              simp only [processInstr, hop, hterm, hdest, if_neg hterm, if_true, if_false]
              rw [idStep_isOk]
              simp [lvnFailB, hop, hterm, hdest, hargs]
            · simp only [processInstr, hop, hterm, hdest, if_neg hterm, if_neg hid, if_true,
                if_false]
              rw [cseStep_isOk, get_expr_isOk]
              simp [lvnFailB, hop, hterm, hdest, hid, hargs]

theorem lvnGo_error_iff (block : List Instr) : ∀ lvn : LVNTable,
    ((lvnGo lvn block).2.isSome = true ↔ ∃ i ∈ block, lvnFailB i = true) := by
  induction block with
  | nil => intro lvn; simp [lvnGo]
  | cons i rest ih =>
      intro lvn
      have hOk := processInstr_isOk i lvn
      cases hp : processInstr i lvn with
      | error q =>
          rw [hp] at hOk
          have hfail : lvnFailB i = true := by
            revert hOk
            cases lvnFailB i <;> simp [Except.isOk, Except.toBool]
          simp [lvnGo, hp]
          exact Or.inl hfail
      | ok q =>
          obtain ⟨i', lvn'⟩ := q
          rw [hp] at hOk
          have hfail : lvnFailB i = false := by
            revert hOk
            cases lvnFailB i <;> simp [Except.isOk, Except.toBool]
          simp [lvnGo, hp, ih lvn', hfail]

theorem idStep_error_shape (i1 : Instr) (dest : String) (lvn1 : LVNTable)
    (i' : Instr) (m : String)
    (h : idStep i1 dest lvn1 = Except.error (i', m)) : i' = i1 := by
  cases ha : i1.args with
  | nil =>
      simp [idStep, ha] at h
      exact h.1.symm
  | cons a r => simp [idStep, ha] at h

theorem cseStep_error_shape (op : String) (i1 : Instr) (dest : String) (lvn1 : LVNTable)
    (i' : Instr) (m : String)
    (h : cseStep op i1 dest lvn1 = Except.error (i', m)) : i' = i1 := by
  cases hE : get_expr op i1 lvn1 with
  | error e =>
      simp [cseStep, hE] at h
      exact h.1.symm
  | ok q =>
      obtain ⟨expr, lvn2⟩ := q
      simp only [cseStep, hE] at h
      cases hdl : dlookup expr lvn2.expr2id <;> simp [hdl] at h

theorem processInstr_error_shape (i : Instr) (lvn : LVNTable) (i' : Instr) (m : String)
    (h : processInstr i lvn = Except.error (i', m)) :
    i'.op = i.op ∧ i'.dest = i.dest ∧ lvnFailB i = true := by
  have hfail : lvnFailB i = true := by
    have hOk := processInstr_isOk i lvn
    rw [h] at hOk
    revert hOk
    cases lvnFailB i <;> simp [Except.isOk, Except.toBool]
  refine ⟨?_, ?_, hfail⟩ <;>
  · cases hop : i.op with
    | none => simp [processInstr, hop] at h
    | some op =>
        by_cases hterm : op ∈ TERMINATORS
        · simp [processInstr, hop, hterm] at h
        · cases hdest : i.dest with
          | none => simp [processInstr, hop, hterm, hdest] at h
          | some dest =>
              by_cases hid : op = "id"
              · subst hid
                simp only [processInstr, hop, hterm, hdest, if_neg hterm, if_true,
                  if_false] at h
                obtain rfl := idStep_error_shape _ _ _ _ _ h
                simp [hop, hdest]
              · simp only [processInstr, hop, hterm, hdest, if_neg hterm, if_neg hid,
                  if_true, if_false] at h
                obtain rfl := cseStep_error_shape _ _ _ _ _ _ h
                simp [hop, hdest]

theorem lvnGo_error_shape (block : List Instr) : ∀ (lvn : LVNTable) (out : List Instr)
    (msg : String), lvnGo lvn block = (out, some msg) →
    ∃ j, j < block.length ∧ out.length = block.length ∧
      lvnGo lvn (block.take j) = (out.take j, none) ∧
      out.drop (j + 1) = block.drop (j + 1) ∧
      ∃ bi oi, block.get? j = some bi ∧ out.get? j = some oi ∧
        oi.op = bi.op ∧ oi.dest = bi.dest ∧ lvnFailB bi = true := by
  induction block with
  | nil => intro lvn out msg h; simp [lvnGo] at h
  | cons i rest ih =>
      intro lvn out msg h
      cases hp : processInstr i lvn with
      | error q =>
          obtain ⟨i', m⟩ := q
          simp only [lvnGo, hp] at h
          rw [Prod.mk.injEq] at h
          obtain ⟨hout, hmsg⟩ := h
          obtain ⟨hiop, hidest, hifail⟩ := processInstr_error_shape i lvn i' m hp
          refine ⟨0, by simp, ?_, by simp [lvnGo], by simp [← hout], i, i', rfl, ?_, ?_, ?_, hifail⟩
          · rw [← hout]; simp
          · rw [← hout]; rfl
          · exact hiop
          · exact hidest
      | ok q =>
          obtain ⟨i', lvn'⟩ := q
          simp only [lvnGo, hp] at h
          rw [Prod.mk.injEq] at h
          obtain ⟨hout, hmsg⟩ := h
          have hr : lvnGo lvn' rest = ((lvnGo lvn' rest).1, some msg) := by
            rw [← hmsg]
          obtain ⟨j, hj, hlen, htake, hdrop, bi, oi, hbi, hoi, hop2, hdest2, hfail2⟩ :=
            ih lvn' (lvnGo lvn' rest).1 msg hr
          refine ⟨j + 1, by simpa using hj, ?_, ?_, ?_, bi, oi, ?_, ?_, hop2, hdest2, hfail2⟩
          · rw [← hout]; simpa using hlen
          · simp only [List.take_succ_cons, lvnGo, hp, htake]
            rw [← hout]
            simp
          · rw [← hout]
            simpa using hdrop
          · simpa using hbi
          · rw [← hout]; simpa using hoi

/-! ### Claims C9 and C10: statements -/

/-- C9 counterexample: `{op: "print", dest: "x", args: ["y"]}` has a
destination and an operation that is not `const`/`id` and lies outside
`{add, mul, sub, div}`, yet `local_value_numbering` does not fail on it — the
code's supported expression set also contains `print`, so failure is not
"exactly" under the claimed condition. -/
theorem lvn_unsupported_cex :
    (local_value_numbering [{ op := some "print", dest := some "x", args := ["y"] }]).2
        = none ∧
    ({ op := some "print", dest := some "x", args := ["y"] } : Instr).dest.isSome = true ∧
    "print" ∉ ["const", "id", "add", "mul", "sub", "div"] :=
  ⟨by decide, by decide, by decide⟩

/-- C9 (amended): `local_value_numbering` fails exactly when the block
contains a destination-carrying, non-terminator instruction whose operation
lies outside `{const, id, add, mul, sub, div, print}` — or is a malformed
`const`/`id` missing its literal/argument, where the source's hard dictionary
accesses raise; in particular `[{op: "foo", dest: "x", args: ["y"]}]` fails
with the unsupported-operation error. -/
theorem lvn_unsupported_iff (block : List Instr) :
    ((local_value_numbering block).2.isSome = true ↔ ∃ i ∈ block, lvnFailB i = true) ∧
    (local_value_numbering [fooI]).2 = some "Unsupported operation for LVN: foo" :=
  ⟨lvnGo_error_iff block {}, by decide⟩

/-- C10: when LVN raises partway through a block there is no rollback: the
output block has an index `j` such that the prefix before `j` is exactly what
LVN produces on that prefix alone (all argument/CSE rewrites kept), the
instructions after `j` are untouched, and the failing instruction at `j`
keeps its operation and destination (only its arguments were rewritten
before the raise). -/
theorem lvn_no_rollback (block out : List Instr) (msg : String)
    (h : local_value_numbering block = (out, some msg)) :
    ∃ j, j < block.length ∧ out.length = block.length ∧
      local_value_numbering (block.take j) = (out.take j, none) ∧
      out.drop (j + 1) = block.drop (j + 1) ∧
      ∃ bi oi, block.get? j = some bi ∧ out.get? j = some oi ∧
        oi.op = bi.op ∧ oi.dest = bi.dest ∧ lvnFailB bi = true :=
  lvnGo_error_shape block {} out msg h

/-- Witness for C10: a block failing at its third instruction, with the
`id`-propagated argument rewrite of the failing `foo` kept and the final
`add` untouched. -/
theorem lvn_no_rollback_witness :
    ∃ j, j < ([constI "x" 4, idI "y" "x",
        { op := some "foo", dest := some "z", args := ["y"] },
        addI "w" "x" "x"] : List Instr).length ∧
      ([constI "x" 4, idI "y" "x",
        { op := some "foo", dest := some "z", args := ["x"] },
        addI "w" "x" "x"] : List Instr).length = 4 ∧
      local_value_numbering ([constI "x" 4, idI "y" "x",
          { op := some "foo", dest := some "z", args := ["y"] },
          addI "w" "x" "x"].take j) =
        ([constI "x" 4, idI "y" "x",
          { op := some "foo", dest := some "z", args := ["x"] },
          addI "w" "x" "x"].take j, none) ∧
      ([constI "x" 4, idI "y" "x",
        { op := some "foo", dest := some "z", args := ["x"] },
        addI "w" "x" "x"] : List Instr).drop (j + 1) =
        ([constI "x" 4, idI "y" "x",
          { op := some "foo", dest := some "z", args := ["y"] },
          addI "w" "x" "x"] : List Instr).drop (j + 1) ∧
      ∃ bi oi, [constI "x" 4, idI "y" "x",
          { op := some "foo", dest := some "z", args := ["y"] },
          addI "w" "x" "x"].get? j = some bi ∧
        [constI "x" 4, idI "y" "x",
          { op := some "foo", dest := some "z", args := ["x"] },
          addI "w" "x" "x"].get? j = some oi ∧
        oi.op = bi.op ∧ oi.dest = bi.dest ∧ lvnFailB bi = true := by
  have h := lvn_no_rollback
    [constI "x" 4, idI "y" "x",
      { op := some "foo", dest := some "z", args := ["y"] }, addI "w" "x" "x"]
    [constI "x" 4, idI "y" "x",
      { op := some "foo", dest := some "z", args := ["x"] }, addI "w" "x" "x"]
    "Unsupported operation for LVN: foo" (by decide)
  simpa using h

/-! ### Claims C3 and C8: `form_cfg` structure -/

theorem close_block_nodup (name : String) (s : FBState)
    (h : (dkeys s.label_map).Nodup) : (dkeys (close_block name s).label_map).Nodup := by
  unfold close_block
  split
  · exact h
  · split <;> exact dkeys_dinsert_nodup _ _ _ h

theorem fb_step_nodup (name : String) (s : FBState) (i : Instr)
    (h : (dkeys s.label_map).Nodup) : (dkeys (fb_step name s i).label_map).Nodup := by
  unfold fb_step
  split
  · exact close_block_nodup name s h
  · split
    · exact close_block_nodup name _ h
    · exact h

theorem form_blocks_nodup_keys (body : List Instr) (name : String) :
    (dkeys (form_blocks body name).label_map).Nodup := by
  suffices h : ∀ s : FBState, (dkeys s.label_map).Nodup →
      (dkeys (close_block name (body.foldl (fb_step name) s)).label_map).Nodup by
    exact h ⟨[], [], 0, [], none⟩ (by simp [dkeys])
  induction body with
  | nil => intro s hs; exact close_block_nodup name s hs
  | cons i rest ih =>
      intro s hs
      exact ih (fb_step name s i) (fb_step_nodup name s i hs)

theorem resolveAll_error_iff (ltbi : List (String × String)) (ts : List String) :
    (∃ e, resolveAll ltbi ts = Except.error e) ↔
      ∃ t ∈ ts, dlookup t ltbi = none := by
  induction ts with
  | nil => simp [resolveAll]
  | cons t ts ih =>
      cases hl : dlookup t ltbi with
      | none => simp [resolveAll, hl]
      | some bid =>
          simp only [resolveAll, hl]
          cases hr : resolveAll ltbi ts with
          | ok rest =>
              simp only [hr]
              constructor
              · rintro ⟨e, he⟩; exact absurd he (by simp)
              · rintro ⟨t', ht', hn⟩
                rcases List.mem_cons.mp ht' with rfl | ht'
                · exact absurd hn (by simp [hl])
                · obtain ⟨e, he⟩ := ih.mpr ⟨t', ht', hn⟩
                  rw [he] at hr
                  exact Except.noConfusion hr
          | error e =>
              simp only [hr]
              constructor
              · intro _
                obtain ⟨t', ht', hn⟩ := ih.mp ⟨e, hr⟩
                exact ⟨t', List.mem_cons_of_mem _ ht', hn⟩
              · intro _; exact ⟨e, rfl⟩

theorem blockTargets_error_iff (blks : BlockInfo) (labels : List String) (idx : Nat)
    (label : String) :
    (∃ e, blockTargets blks labels idx label = Except.error e) ↔
      unresolvedIn blks ((dlookup label blks.label_map).getD []) = true := by
  cases hlast : ((dlookup label blks.label_map).getD []).getLast? with
  | none => simp [blockTargets, lastOp, unresolvedIn, hlast]
  | some i =>
      by_cases hjb : i.op = some "jmp" ∨ i.op = some "br"
      · simp only [blockTargets, lastOp, unresolvedIn, hlast, if_pos hjb]
        rw [resolveAll_error_iff]
        constructor
        · rintro ⟨t, ht, hn⟩
          refine (Bool.and_eq_true _ _).mpr ⟨by rcases hjb with h | h <;> simp [h], ?_⟩
          exact List.any_eq_true.mpr ⟨t, ht, by simp [hn]⟩
        · intro hu
          obtain ⟨t, ht, hn⟩ := List.any_eq_true.mp ((Bool.and_eq_true _ _).mp hu).2
          exact ⟨t, ht, by simpa using hn⟩
      · have hnj : ¬(lastOp ((dlookup label blks.label_map).getD []) = some "jmp" ∨
            lastOp ((dlookup label blks.label_map).getD []) = some "br") := by
          simpa [lastOp, hlast] using hjb
        simp only [blockTargets, unresolvedIn, hlast, if_neg hnj]
        constructor
        · rintro ⟨e, he⟩
          split at he <;> exact Except.noConfusion he
        · intro hu
          have : (decide (i.op = some "jmp") || decide (i.op = some "br")) = true :=
            ((Bool.and_eq_true _ _).mp hu).1
          rcases Bool.or_eq_true .. |>.mp this with h | h <;>
            exact absurd (by simpa using h) (by tauto)

theorem cfgFold_error_iff (blks : BlockInfo) (labels : List String) :
    ∀ (work : List (Nat × String)) (succ pred : List (String × List String)),
    (∃ e, cfgFold blks labels work succ pred = Except.error e) ↔
      ∃ p ∈ work, unresolvedIn blks ((dlookup p.2 blks.label_map).getD []) = true := by
  intro work
  induction work with
  | nil => intro succ pred; simp [cfgFold]
  | cons q rest ih =>
      intro succ pred
      obtain ⟨idx, label⟩ := q
      cases hbt : blockTargets blks labels idx label with
      | error e =>
          have h1 : unresolvedIn blks ((dlookup label blks.label_map).getD []) = true :=
            (blockTargets_error_iff blks labels idx label).mp ⟨e, hbt⟩
          simp only [cfgFold, hbt]
          constructor
          · intro _
            exact ⟨(idx, label), List.mem_cons_self _ _, h1⟩
          · intro _
            exact ⟨e, rfl⟩
      | ok targets =>
          have h1 : unresolvedIn blks ((dlookup label blks.label_map).getD []) = false := by
            by_contra hc
            have ht : unresolvedIn blks ((dlookup label blks.label_map).getD []) = true := by
              revert hc
              cases unresolvedIn blks ((dlookup label blks.label_map).getD []) <;> simp
            obtain ⟨e, he⟩ := (blockTargets_error_iff blks labels idx label).mpr ht
            rw [hbt] at he
            exact Except.noConfusion he
          simp only [cfgFold, hbt]
          rw [ih]
          constructor
          · rintro ⟨p, hp, hu⟩
            exact ⟨p, List.mem_cons_of_mem _ hp, hu⟩
          · rintro ⟨p, hp, hu⟩
            rcases List.mem_cons.mp hp with rfl | hp
            · rw [h1] at hu; exact Bool.noConfusion hu
            · exact ⟨p, hp, hu⟩

theorem form_cfg_error_iff (blks : BlockInfo) :
    (∃ e, form_cfg blks = Except.error e) ↔
      ∃ p ∈ (dkeys blks.label_map).enum,
        unresolvedIn blks ((dlookup p.2 blks.label_map).getD []) = true := by
  rw [← cfgFold_error_iff blks (dkeys blks.label_map) ((dkeys blks.label_map).enum) [] []]
  unfold form_cfg
  cases hcf : cfgFold blks (dkeys blks.label_map) ((dkeys blks.label_map).enum) [] [] with
  | error e => simp [hcf]
  | ok r => simp [hcf]

/-- C8: `form_cfg` on `form_blocks` output fails exactly when some block's
last instruction is a `jmp`/`br` with a target label missing from
`label_to_block_id` (the source raises the lookup's `KeyError`, the spec's
`UnresolvedLabel` signal); when no such block exists it completes without
error, and an error produces no successor/predecessor maps. -/
theorem form_cfg_unresolved_iff (body : List Instr) (name : String) :
    (∃ e, form_cfg (form_blocks body name) = Except.error e) ↔
      ∃ q ∈ (form_blocks body name).label_map,
        unresolvedIn (form_blocks body name) q.2 = true := by
  rw [form_cfg_error_iff]
  constructor
  · rintro ⟨p, hp, hu⟩
    have hk : p.2 ∈ dkeys (form_blocks body name).label_map := by
      have hmap := List.enum_map_snd (dkeys (form_blocks body name).label_map)
      exact hmap ▸ List.mem_map_of_mem Prod.snd hp
    have hs := dlookup_isSome_of_mem_keys _ _ hk
    obtain ⟨v, hv⟩ := Option.isSome_iff_exists.mp hs
    refine ⟨(p.2, v), mem_of_dlookup _ _ _ hv, ?_⟩
    rw [hv] at hu
    simpa using hu
  · rintro ⟨q, hq, hu⟩
    have hnd := form_blocks_nodup_keys body name
    have hv : dlookup q.1 (form_blocks body name).label_map = some q.2 :=
      dlookup_of_mem_nodup q.1 q.2 _ hnd hq
    have hk : q.1 ∈ dkeys (form_blocks body name).label_map :=
      mem_keys_of_dlookup _ _ _ hv
    have hk2 : q.1 ∈ ((dkeys (form_blocks body name).label_map).enum).map Prod.snd := by
      rw [List.enum_map_snd]
      exact hk
    obtain ⟨p, hp, hpe⟩ := List.mem_map.mp hk2
    refine ⟨p, hp, ?_⟩
    rw [hpe, hv]
    simpa using hu

theorem dlookup_dappend_self (k x : String) (m : List (String × List String)) :
    dlookup k (dappend k x m) = some ((dlookup k m).getD [] ++ [x]) := by
  induction m with
  | nil => simp [dappend, dlookup]
  | cons p rest ih =>
      obtain ⟨k0, v0⟩ := p
      by_cases hk : k0 = k
      · subst hk; simp [dappend, dlookup]
      · simp [dappend, hk, dlookup, ih]

theorem dlookup_dappend_ne (k k' x : String) (m : List (String × List String))
    (h : k' ≠ k) : dlookup k' (dappend k x m) = dlookup k' m := by
  induction m with
  | nil => simp [dappend, dlookup, Ne.symm h]
  | cons p rest ih =>
      obtain ⟨k0, v0⟩ := p
      by_cases h0 : k0 = k
      · subst h0; simp [dappend, dlookup, Ne.symm h]
      · by_cases h1 : k0 = k'
        · subst h1; simp [dappend, h0, dlookup]
        · simp [dappend, h0, dlookup, h1, ih]

theorem edgeList_dappend_self (k x : String) (m : List (String × List String)) :
    edgeList (dappend k x m) k = edgeList m k ++ [x] := by
  simp [edgeList, dlookup_dappend_self]

theorem edgeList_dappend_ne (k k' x : String) (m : List (String × List String))
    (h : k' ≠ k) : edgeList (dappend k x m) k' = edgeList m k' := by
  simp [edgeList, dlookup_dappend_ne k k' x m h]

theorem mem_edgeList_predFold (targets : List String) (label : String) (A B : String) :
    ∀ pred : List (String × List String),
    (A ∈ edgeList (targets.foldl (fun m t => dappend t label m) pred) B ↔
      A ∈ edgeList pred B ∨ (A = label ∧ B ∈ targets)) := by
  induction targets with
  | nil => intro pred; simp
  | cons t ts ih =>
      intro pred
      simp only [List.foldl_cons]
      rw [ih]
      by_cases hBt : B = t
      · subst hBt
        rw [edgeList_dappend_self]
        simp only [List.mem_append, List.mem_singleton, List.mem_cons]
        tauto
      · rw [edgeList_dappend_ne t B label pred hBt]
        simp only [List.mem_cons]
        tauto

theorem edgeList_empty (k : String) : edgeList [] k = [] := rfl

theorem cfgFold_symm (blks : BlockInfo) (labels : List String) :
    ∀ (work : List (Nat × String)) (succ pred : List (String × List String))
      (out : List (String × List String) × List (String × List String)),
      (work.map Prod.snd).Nodup →
      (∀ p ∈ work, dlookup p.2 succ = none) →
      (∀ A B, B ∈ edgeList succ A ↔ A ∈ edgeList pred B) →
      (∀ B A, A ∈ edgeList pred B → (dlookup A succ).isSome = true) →
      cfgFold blks labels work succ pred = Except.ok out →
      (∀ A B, B ∈ edgeList out.1 A ↔ A ∈ edgeList out.2 B) := by
  intro work
  induction work with
  | nil =>
      intro succ pred out _ _ hiff _ hok
      simp only [cfgFold, Except.ok.injEq] at hok
      rw [← hok]
      exact hiff
  | cons q rest ih =>
      intro succ pred out hnd hfresh hiff hdom hok
      obtain ⟨idx, label⟩ := q
      cases hbt : blockTargets blks labels idx label with
      | error e => rw [cfgFold, hbt] at hok; exact Except.noConfusion hok
      | ok targets =>
          rw [cfgFold, hbt] at hok
          have hndrest : (rest.map Prod.snd).Nodup := by
            simpa using (List.nodup_cons.mp (by simpa using hnd)).2
          have hlabfresh : label ∉ rest.map Prod.snd :=
            (List.nodup_cons.mp (by simpa using hnd)).1
          have hfreshlabel : dlookup label succ = none :=
            hfresh (idx, label) (List.mem_cons_self _ _)
          refine ih (dinsert label targets succ)
            (targets.foldl (fun m t => dappend t label m) pred) out ?_ ?_ ?_ ?_ hok
          · exact hndrest
          · intro p hp
            have hne : p.2 ≠ label := by
              intro hc
              exact hlabfresh (hc ▸ List.mem_map_of_mem Prod.snd hp)
            rw [dlookup_dinsert_ne label p.2 targets succ hne]
            exact hfresh p (List.mem_cons_of_mem _ hp)
          · intro A B
            rw [mem_edgeList_predFold]
            by_cases hA : A = label
            · subst hA
              have h1 : edgeList (dinsert A targets succ) A = targets := by
                simp [edgeList, dlookup_dinsert_self]
              have h2 : A ∉ edgeList pred B := by
                intro hc
                have := hdom B A hc
                rw [hfreshlabel] at this
                exact Bool.noConfusion this
              rw [h1]
              simp [h2]
            · have h1 : edgeList (dinsert label targets succ) A = edgeList succ A := by
                simp [edgeList, dlookup_dinsert_ne label A targets succ hA]
              rw [h1, hiff A B]
              simp [hA]
          · intro B A hmem
            rw [mem_edgeList_predFold] at hmem
            rcases hmem with hmem | ⟨rfl, _⟩
            · exact dlookup_dinsert_isSome label A targets succ (hdom B A hmem)
            · rw [dlookup_dinsert_self]
              rfl

theorem dlookup_setdefault_getD (k k' : String) (m : List (String × List String)) :
    (dlookup k' (setdefault k ([] : List String) m)).getD [] = (dlookup k' m).getD [] := by
  unfold setdefault
  split
  · rfl
  · rename_i hnone
    have hn : dlookup k m = none := by
      cases h : dlookup k m with
      | none => rfl
      | some v => rw [h] at hnone; simp at hnone
    by_cases hk : k' = k
    · subst hk
      rw [dlookup_append_right _ _ _ hn, hn]
      simp [dlookup]
    · have hk2 : ¬(k = k') := fun hh => hk hh.symm
      cases h : dlookup k' m with
      | none =>
          rw [dlookup_append_right _ _ _ h]
          simp [dlookup, hk2, h]
      | some v =>
          rw [dlookup_append_left _ _ _ (by simp [h]), h]

theorem edgeList_setdefault_fold (ls : List String) (k' : String) :
    ∀ m : List (String × List String),
    edgeList (ls.foldl (fun m l => setdefault l [] m) m) k' = edgeList m k' := by
  induction ls with
  | nil => intro m; rfl
  | cons l ls ih =>
      intro m
      simp only [List.foldl_cons]
      rw [ih]
      exact dlookup_setdefault_getD l k' m

theorem setdefault_isSome_mono (k k' : String) (v : List String)
    (m : List (String × List String)) (h : (dlookup k' m).isSome = true) :
    (dlookup k' (setdefault k v m)).isSome = true := by
  unfold setdefault
  split
  · exact h
  · rw [dlookup_append_left k' m [(k, v)] h]
    exact h

theorem setdefault_self_isSome (k : String) (v : List String)
    (m : List (String × List String)) :
    (dlookup k (setdefault k v m)).isSome = true := by
  unfold setdefault
  split
  · assumption
  · rename_i hnone
    have hn : dlookup k m = none := by
      cases h : dlookup k m with
      | none => rfl
      | some w => rw [h] at hnone; simp at hnone
    rw [dlookup_append_right k m [(k, v)] hn]
    simp [dlookup]

theorem foldl_setdefault_isSome_mono (ls : List String) (k : String) :
    ∀ m : List (String × List String), (dlookup k m).isSome = true →
    (dlookup k (ls.foldl (fun m l => setdefault l [] m) m)).isSome = true := by
  induction ls with
  | nil => intro m h; exact h
  | cons l ls ih =>
      intro m h
      simp only [List.foldl_cons]
      exact ih _ (setdefault_isSome_mono l k [] m h)

theorem foldl_setdefault_isSome (ls : List String) (k : String) (hk : k ∈ ls) :
    ∀ m : List (String × List String),
    (dlookup k (ls.foldl (fun m l => setdefault l [] m) m)).isSome = true := by
  induction ls with
  | nil => simp at hk
  | cons l ls ih =>
      intro m
      simp only [List.foldl_cons]
      rcases List.mem_cons.mp hk with rfl | hk'
      · exact foldl_setdefault_isSome_mono ls k _ (setdefault_self_isSome k [] m)
      · exact ih hk' _

/-- C3: after a successful `form_cfg` on `form_blocks` output, `B` is in
`successors(A)` if and only if `A` is in `predecessors(B)`, and both maps
hold an entry (possibly empty) for every block identifier, so lookups never
fail. -/
theorem form_cfg_symm (body : List Instr) (name : String) (blks' : BlockInfo)
    (h : form_cfg (form_blocks body name) = Except.ok blks') :
    (∀ A B, B ∈ edgeList blks'.successors A ↔ A ∈ edgeList blks'.predecessors B) ∧
    (∀ k ∈ dkeys blks'.label_map,
      (dlookup k blks'.successors).isSome = true ∧
      (dlookup k blks'.predecessors).isSome = true) := by
  simp only [form_cfg] at h
  cases hcf : cfgFold (form_blocks body name) (dkeys (form_blocks body name).label_map)
      ((dkeys (form_blocks body name).label_map).enum) [] [] with
  | error e => rw [hcf] at h; exact Except.noConfusion h
  | ok r =>
      rw [hcf] at h
      simp only [Except.ok.injEq] at h
      have hsymm := cfgFold_symm (form_blocks body name)
        (dkeys (form_blocks body name).label_map)
        ((dkeys (form_blocks body name).label_map).enum) [] [] r
        (by rw [List.enum_map_snd]; exact form_blocks_nodup_keys body name)
        (fun p _ => rfl)
        (by intro A B; simp [edgeList_empty])
        (by intro B A hmem; simp [edgeList_empty] at hmem)
        hcf
      constructor
      · intro A B
        rw [← h]
        simp only
        rw [edgeList_setdefault_fold, edgeList_setdefault_fold]
        exact hsymm A B
      · intro k hk
        rw [← h]
        simp only
        have hk' : k ∈ dkeys (form_blocks body name).label_map := by
          rw [← h] at hk
          simpa using hk
        exact ⟨foldl_setdefault_isSome _ k hk' r.1,
          foldl_setdefault_isSome _ k hk' r.2⟩

/-- Witness for C3: the symmetric-edge property instantiated on a concrete
two-block CFG. -/
theorem form_cfg_symm_witness :
    "f::l" ∈ edgeList [("f::b0", ["f::l"]), ("f::l", [])] "f::b0" ↔
      "f::b0" ∈ edgeList [("f::l", ["f::b0"]), ("f::b0", [])] "f::l" :=
  (form_cfg_symm [jmpI "l", mkLabel "l", retI] "f"
    { function_name := "f"
      label_map := [("f::b0", [jmpI "l"]), ("f::l", [retI])]
      label_to_block_id := [("l", "f::l")]
      successors := [("f::b0", ["f::l"]), ("f::l", [])]
      predecessors := [("f::l", ["f::b0"]), ("f::b0", [])] } (by rfl)).1 "f::b0" "f::l"

/-! ### Claims C2 and C7: decimal names and string keys -/

theorem toDigitsCore_eq_decDigits (fuel : Nat) : ∀ (n : Nat) (ds : List Char), n < fuel →
    Nat.toDigitsCore 10 fuel n ds = decDigits n ++ ds := by
  induction fuel with
  | zero => intro n ds h; omega
  | succ f ih =>
      intro n ds h
      rw [Nat.toDigitsCore]
      by_cases h10 : n / 10 = 0
      · rw [if_pos h10, decDigits, if_pos h10]
        rfl
      · rw [if_neg h10, ih (n / 10) _ (by omega)]
        conv_rhs => rw [decDigits]
        rw [if_neg h10]
        simp

theorem charDigitVal_digitChar : ∀ d, d < 10 → charDigitVal (Nat.digitChar d) = d := by
  decide

theorem undigits_decDigits (n : Nat) : undigits (decDigits n) = n := by
  induction n using Nat.strong_induction_on with
  | _ n ih =>
      rw [decDigits]
      by_cases h10 : n / 10 = 0
      · rw [if_pos h10]
        simp only [undigits, List.foldl_cons, List.foldl_nil, Nat.zero_mul, Nat.zero_add]
        rw [charDigitVal_digitChar (n % 10) (by omega)]
        omega
      · rw [if_neg h10]
        simp only [undigits, List.foldl_append, List.foldl_cons, List.foldl_nil]
        have hrec := ih (n / 10) (by omega)
        simp only [undigits] at hrec
        rw [hrec, charDigitVal_digitChar (n % 10) (by omega)]
        omega

theorem decDigits_inj (m n : Nat) (h : decDigits m = decDigits n) : m = n := by
  have hm := undigits_decDigits m
  rw [h, undigits_decDigits n] at hm
  exact hm.symm

theorem toString_nat_inj (m n : Nat) (h : toString m = toString n) : m = n := by
  have hd : Nat.toDigits 10 m = Nat.toDigits 10 n := by
    have := congrArg String.data h
    exact this
  rw [show Nat.toDigits 10 m = Nat.toDigitsCore 10 (m + 1) m [] from rfl,
      show Nat.toDigits 10 n = Nat.toDigitsCore 10 (n + 1) n [] from rfl,
      toDigitsCore_eq_decDigits (m + 1) m [] (by omega),
      toDigitsCore_eq_decDigits (n + 1) n [] (by omega)] at hd
  simp only [List.append_nil] at hd
  exact decDigits_inj m n hd

theorem string_data_inj (a b : String) (h : a.data = b.data) : a = b :=
  congrArg String.mk h

theorem string_append_left_inj (s a b : String) (h : s ++ a = s ++ b) : a = b := by
  apply string_data_inj
  have hd := congrArg String.data h
  simp only [String.data_append] at hd
  exact List.append_cancel_left hd

theorem key_lab_inj (name l1 l2 : String)
    (h : name ++ "::" ++ l1 = name ++ "::" ++ l2) : l1 = l2 := by
  rw [String.append_assoc, String.append_assoc] at h
  exact string_append_left_inj _ _ _ (string_append_left_inj _ _ _ h)

theorem key_syn_eq (name : String) (g : Nat) :
    name ++ "::b" ++ toString g = name ++ "::" ++ ("b" ++ toString g) := by
  apply string_data_inj
  simp [String.data_append]

theorem key_syn_inj (name : String) (g1 g2 : Nat)
    (h : name ++ "::b" ++ toString g1 = name ++ "::b" ++ toString g2) : g1 = g2 := by
  rw [key_syn_eq, key_syn_eq] at h
  exact toString_nat_inj g1 g2 (string_append_left_inj _ _ _ (key_lab_inj _ _ _ h))

theorem key_lab_ne_syn (name l : String) (g : Nat) (h : l ≠ "b" ++ toString g) :
    name ++ "::" ++ l ≠ name ++ "::b" ++ toString g := by
  intro hc
  rw [key_syn_eq] at hc
  exact h (key_lab_inj _ _ _ hc)

theorem close_block_empty (name : String) (s : FBState) (h : s.current_block = []) :
    close_block name s = s := by
  simp [close_block, h]

theorem close_block_label (name : String) (s : FBState) (l : String)
    (hacc : ¬s.current_block = []) (hlab : s.current_label = some l)
    (hk : (name ++ "::" ++ l) ∉ dkeys s.label_map)
    (hl : l ∉ dkeys s.label_to_block_id) :
    close_block name s =
      { label_map := s.label_map ++ [(name ++ "::" ++ l, s.current_block)]
        label_to_block_id := s.label_to_block_id ++ [(l, name ++ "::" ++ l)]
        gen := s.gen
        current_block := []
        current_label := none } := by
  simp [close_block, hacc, hlab, dinsert_of_not_mem _ _ _ hk, dinsert_of_not_mem _ _ _ hl]

theorem close_block_syn (name : String) (s : FBState)
    (hacc : ¬s.current_block = []) (hlab : s.current_label = none)
    (hk : (name ++ "::b" ++ toString s.gen) ∉ dkeys s.label_map) :
    close_block name s =
      { label_map := s.label_map ++ [(name ++ "::b" ++ toString s.gen, s.current_block)]
        label_to_block_id := s.label_to_block_id
        gen := s.gen + 1
        current_block := []
        current_label := none } := by
  simp [close_block, hacc, hlab, dinsert_of_not_mem _ _ _ hk]

theorem segs_nil (pending : Option String) (acc : List Instr) :
    segs pending acc [] = if acc = [] then [] else [(pending, acc)] := rfl

theorem segs_cons (pending : Option String) (acc : List Instr) (i : Instr)
    (rest : List Instr) :
    segs pending acc (i :: rest) =
      if is_label i then
        (if acc = [] then [] else [(pending, acc)]) ++ segs i.label [] rest
      else if isTerm i then (pending, acc ++ [i]) :: segs none [] rest
      else segs pending (acc ++ [i]) rest := rfl

theorem segKeys_some (name : String) (g : Nat) (l : String) (b : List Instr)
    (S : List (Option String × List Instr)) :
    segKeys name g ((some l, b) :: S) = (name ++ "::" ++ l, b) :: segKeys name g S := rfl

theorem segKeys_none (name : String) (g : Nat) (b : List Instr)
    (S : List (Option String × List Instr)) :
    segKeys name g ((none, b) :: S) =
      (name ++ "::b" ++ toString g, b) :: segKeys name (g + 1) S := rfl

theorem segLtbi_some (name : String) (l : String) (b : List Instr)
    (S : List (Option String × List Instr)) :
    segLtbi name ((some l, b) :: S) = (l, name ++ "::" ++ l) :: segLtbi name S := rfl

theorem segLtbi_none (name : String) (b : List Instr)
    (S : List (Option String × List Instr)) :
    segLtbi name ((none, b) :: S) = segLtbi name S := rfl

theorem dkeys_append [DecidableEq κ] (m m' : List (κ × α)) :
    dkeys (m ++ m') = dkeys m ++ dkeys m' := by
  simp [dkeys]

theorem not_mem_of_nodup_append_cons {K K' : List String} {k : String}
    (h : (K ++ k :: K').Nodup) : k ∉ K := by
  intro hk
  exact (List.nodup_append.mp h).2.2 hk (List.mem_cons_self k K')

theorem fb_fold_chars (name : String) (body : List Instr) : ∀ s : FBState,
    (dkeys s.label_map ++
      dkeys (segKeys name s.gen (segs s.current_label s.current_block body))).Nodup →
    (dkeys s.label_to_block_id ++
      dkeys (segLtbi name (segs s.current_label s.current_block body))).Nodup →
    (close_block name (body.foldl (fb_step name) s)).label_map =
      s.label_map ++ segKeys name s.gen (segs s.current_label s.current_block body) ∧
    (close_block name (body.foldl (fb_step name) s)).label_to_block_id =
      s.label_to_block_id ++ segLtbi name (segs s.current_label s.current_block body) := by
  induction body with
  | nil =>
      intro s h1 h2
      simp only [List.foldl_nil]
      by_cases hacc : s.current_block = []
      · rw [close_block_empty name s hacc]
        rw [segs_nil, if_pos hacc]
        simp [segKeys, segLtbi]
      · rw [segs_nil, if_neg hacc] at h1 h2 ⊢
        cases hpend : s.current_label with
        | some l0 =>
            rw [hpend] at h1 h2
            rw [segKeys_some] at h1 ⊢
            rw [segLtbi_some] at h2 ⊢
            have hk : (name ++ "::" ++ l0) ∉ dkeys s.label_map :=
              not_mem_of_nodup_append_cons (by simpa [dkeys, segKeys] using h1)
            have hl : l0 ∉ dkeys s.label_to_block_id :=
              not_mem_of_nodup_append_cons (by simpa [dkeys, segLtbi] using h2)
            rw [close_block_label name s l0 hacc hpend hk hl]
            simp [segKeys, segLtbi]
        | none =>
            rw [hpend] at h1 h2
            rw [segKeys_none] at h1 ⊢
            have hk : (name ++ "::b" ++ toString s.gen) ∉ dkeys s.label_map :=
              not_mem_of_nodup_append_cons (by simpa [dkeys, segKeys] using h1)
            rw [close_block_syn name s hacc hpend hk]
            simp [segKeys, segLtbi]
  | cons i rest ih =>
      intro s h1 h2
      simp only [List.foldl_cons]
      by_cases hlab : is_label i
      · -- a label closes the accumulator and becomes pending
        by_cases hacc : s.current_block = []
        · have hs' : fb_step name s i =
              { s with current_label := i.label } := by
            simp [fb_step, hlab, close_block_empty name s hacc]
          rw [hs']
          rw [segs_cons, if_pos hlab, if_pos hacc, List.nil_append] at h1 h2 ⊢
          have := ih { s with current_label := i.label }
            (by simpa [hacc] using h1) (by simpa [hacc] using h2)
          simpa [hacc] using this
        · cases hpend : s.current_label with
          | some l0 =>
              rw [segs_cons, if_pos hlab, if_neg hacc, List.singleton_append] at h1 h2 ⊢
              rw [hpend] at h1 h2
              rw [segKeys_some] at h1 ⊢
              rw [segLtbi_some] at h2 ⊢
              have hk : (name ++ "::" ++ l0) ∉ dkeys s.label_map :=
                not_mem_of_nodup_append_cons (by simpa [dkeys] using h1)
              have hl : l0 ∉ dkeys s.label_to_block_id :=
                not_mem_of_nodup_append_cons (by simpa [dkeys] using h2)
              have hs' : fb_step name s i =
                  { label_map := s.label_map ++ [(name ++ "::" ++ l0, s.current_block)]
                    label_to_block_id :=
                      s.label_to_block_id ++ [(l0, name ++ "::" ++ l0)]
                    gen := s.gen
                    current_block := []
                    current_label := i.label } := by
                simp [fb_step, hlab, close_block_label name s l0 hacc hpend hk hl]
              rw [hs']
              have := ih
                { label_map := s.label_map ++ [(name ++ "::" ++ l0, s.current_block)]
                  label_to_block_id := s.label_to_block_id ++ [(l0, name ++ "::" ++ l0)]
                  gen := s.gen
                  current_block := []
                  current_label := i.label }
                (by simpa [dkeys_append, dkeys] using h1)
                (by simpa [dkeys_append, dkeys] using h2)
              simpa using this
          | none =>
              rw [segs_cons, if_pos hlab, if_neg hacc, List.singleton_append] at h1 h2 ⊢
              rw [hpend] at h1 h2
              rw [segKeys_none] at h1 ⊢
              rw [segLtbi_none] at h2 ⊢
              have hk : (name ++ "::b" ++ toString s.gen) ∉ dkeys s.label_map :=
                not_mem_of_nodup_append_cons (by simpa [dkeys] using h1)
              have hs' : fb_step name s i =
                  { label_map :=
                      s.label_map ++ [(name ++ "::b" ++ toString s.gen, s.current_block)]
                    label_to_block_id := s.label_to_block_id
                    gen := s.gen + 1
                    current_block := []
                    current_label := i.label } := by
                simp [fb_step, hlab, close_block_syn name s hacc hpend hk]
              rw [hs']
              have := ih
                { label_map :=
                    s.label_map ++ [(name ++ "::b" ++ toString s.gen, s.current_block)]
                  label_to_block_id := s.label_to_block_id
                  gen := s.gen + 1
                  current_block := []
                  current_label := i.label }
                (by simpa [dkeys_append, dkeys] using h1)
                (by simpa [dkeys_append, dkeys] using h2)
              simpa using this
      · by_cases hterm : isTerm i
        · -- a terminator closes the extended accumulator
          have haccne : ¬s.current_block ++ [i] = [] := by simp
          cases hpend : s.current_label with
          | some l0 =>
              rw [segs_cons, if_neg hlab, if_pos hterm] at h1 h2 ⊢
              rw [hpend] at h1 h2
              rw [segKeys_some] at h1 ⊢
              rw [segLtbi_some] at h2 ⊢
              have hk : (name ++ "::" ++ l0) ∉ dkeys s.label_map :=
                not_mem_of_nodup_append_cons (by simpa [dkeys] using h1)
              have hl : l0 ∉ dkeys s.label_to_block_id :=
                not_mem_of_nodup_append_cons (by simpa [dkeys] using h2)
              have hs' : fb_step name s i =
                  { label_map :=
                      s.label_map ++ [(name ++ "::" ++ l0, s.current_block ++ [i])]
                    label_to_block_id :=
                      s.label_to_block_id ++ [(l0, name ++ "::" ++ l0)]
                    gen := s.gen
                    current_block := []
                    current_label := none } := by
                rw [fb_step, if_neg hlab, if_pos hterm]
                exact close_block_label name { s with current_block := s.current_block ++ [i] }
                  l0 haccne hpend hk hl
              rw [hs']
              have := ih
                { label_map :=
                    s.label_map ++ [(name ++ "::" ++ l0, s.current_block ++ [i])]
                  label_to_block_id := s.label_to_block_id ++ [(l0, name ++ "::" ++ l0)]
                  gen := s.gen
                  current_block := []
                  current_label := none }
                (by simpa [dkeys_append, dkeys] using h1)
                (by simpa [dkeys_append, dkeys] using h2)
              simpa using this
          | none =>
              rw [segs_cons, if_neg hlab, if_pos hterm] at h1 h2 ⊢
              rw [hpend] at h1 h2
              rw [segKeys_none] at h1 ⊢
              rw [segLtbi_none] at h2 ⊢
              have hk : (name ++ "::b" ++ toString s.gen) ∉ dkeys s.label_map :=
                not_mem_of_nodup_append_cons (by simpa [dkeys] using h1)
              have hs' : fb_step name s i =
                  { label_map :=
                      s.label_map ++
                        [(name ++ "::b" ++ toString s.gen, s.current_block ++ [i])]
                    label_to_block_id := s.label_to_block_id
                    gen := s.gen + 1
                    current_block := []
                    current_label := none } := by
                rw [fb_step, if_neg hlab, if_pos hterm]
                exact close_block_syn name { s with current_block := s.current_block ++ [i] }
                  haccne hpend hk
              rw [hs']
              have := ih
                { label_map :=
                    s.label_map ++
                      [(name ++ "::b" ++ toString s.gen, s.current_block ++ [i])]
                  label_to_block_id := s.label_to_block_id
                  gen := s.gen + 1
                  current_block := []
                  current_label := none }
                (by simpa [dkeys_append, dkeys] using h1)
                (by simpa [dkeys_append, dkeys] using h2)
              simpa using this
        · -- an ordinary instruction extends the accumulator
          have hs' : fb_step name s i = { s with current_block := s.current_block ++ [i] } := by
            simp [fb_step, hlab, hterm]
          rw [hs']
          rw [segs_cons, if_neg hlab, if_neg hterm] at h1 h2 ⊢
          exact ih { s with current_block := s.current_block ++ [i] } h1 h2

theorem form_blocks_chars (body : List Instr) (name : String)
    (h1 : (dkeys (segKeys name 0 (segs none [] body))).Nodup)
    (h2 : (dkeys (segLtbi name (segs none [] body))).Nodup) :
    (form_blocks body name).label_map = segKeys name 0 (segs none [] body) ∧
    (form_blocks body name).label_to_block_id = segLtbi name (segs none [] body) := by
  have h := fb_fold_chars name body ⟨[], [], 0, [], none⟩
    (by simpa [dkeys] using h1) (by simpa [dkeys] using h2)
  simpa [form_blocks] using h

theorem labelsOf_cons_label (i : Instr) (rest : List Instr) (l : String)
    (hl : i.label = some l) (hlab : is_label i = true) :
    labelsOf (i :: rest) = l :: labelsOf rest := by
  simp [labelsOf, List.filterMap_cons, hlab, hl]

theorem labelsOf_cons_not (i : Instr) (rest : List Instr) (h : ¬is_label i = true) :
    labelsOf (i :: rest) = labelsOf rest := by
  simp [labelsOf, List.filterMap_cons, h]

theorem is_label_some (i : Instr) (h : is_label i = true) : ∃ l, i.label = some l := by
  simp only [is_label, Bool.and_eq_true, Option.isSome_iff_exists] at h
  exact h.1

theorem labelsOfSegs_nil : labelsOfSegs [] = [] := rfl

theorem labelsOfSegs_cons (p : Option String × List Instr)
    (S : List (Option String × List Instr)) :
    labelsOfSegs (p :: S) = p.1.toList ++ labelsOfSegs S := by
  obtain ⟨op, b⟩ := p
  cases op <;> simp [labelsOfSegs, List.filterMap_cons]

theorem labelsOfSegs_append (S S' : List (Option String × List Instr)) :
    labelsOfSegs (S ++ S') = labelsOfSegs S ++ labelsOfSegs S' := by
  simp [labelsOfSegs, List.filterMap_append]

theorem labelsOfSegs_sublist (body : List Instr) : ∀ (pending : Option String)
    (acc : List Instr),
    List.Sublist (labelsOfSegs (segs pending acc body)) (pending.toList ++ labelsOf body) := by
  induction body with
  | nil =>
      intro pending acc
      rw [segs_nil]
      split
      · exact List.nil_sublist _
      · simp [labelsOfSegs_cons, labelsOfSegs_nil, labelsOf]
  | cons i rest ih =>
      intro pending acc
      rw [segs_cons]
      by_cases hlab : is_label i
      · rw [if_pos hlab]
        obtain ⟨l, hl⟩ := is_label_some i hlab
        rw [labelsOf_cons_label i rest l hl hlab, hl]
        have hrec : List.Sublist (labelsOfSegs (segs (some l) [] rest)) (l :: labelsOf rest) := by
          have h0 := ih i.label []
          rw [hl] at h0
          simpa using h0
        rw [labelsOfSegs_append]
        split
        · rw [labelsOfSegs_nil, List.nil_append]
          exact hrec.trans (List.sublist_append_right _ _)
        · rw [labelsOfSegs_cons, labelsOfSegs_nil, List.append_nil]
          exact List.Sublist.append_left hrec _
      · rw [if_neg hlab, labelsOf_cons_not i rest hlab]
        by_cases hterm : isTerm i
        · rw [if_pos hterm, labelsOfSegs_cons]
          have hrec := ih none []
          simp only [Option.toList_none, List.nil_append] at hrec
          exact List.Sublist.append_left hrec _
        · rw [if_neg hterm]
          exact ih pending (acc ++ [i])

theorem countNone_le_length (S : List (Option String × List Instr)) :
    countNone S ≤ S.length := by
  induction S with
  | nil => simp [countNone]
  | cons p rest ih =>
      obtain ⟨op, b⟩ := p
      cases op <;> simp [countNone] <;> omega

theorem segs_length_le (body : List Instr) : ∀ (pending : Option String)
    (acc : List Instr), (segs pending acc body).length ≤ body.length + 1 := by
  induction body with
  | nil =>
      intro pending acc
      rw [segs_nil]
      split <;> simp
  | cons i rest ih =>
      intro pending acc
      rw [segs_cons]
      by_cases hlab : is_label i
      · rw [if_pos hlab]
        have hrec := ih i.label []
        split <;>
          simp only [List.length_append, List.length_cons, List.length_nil] <;> omega
      · rw [if_neg hlab]
        by_cases hterm : isTerm i
        · rw [if_pos hterm]
          have hrec := ih none []
          simp only [List.length_cons]
          omega
        · rw [if_neg hterm]
          have hrec := ih pending (acc ++ [i])
          simp only [List.length_cons]
          omega

theorem dkeys_segLtbi (name : String) (S : List (Option String × List Instr)) :
    dkeys (segLtbi name S) = labelsOfSegs S := by
  induction S with
  | nil => rfl
  | cons p rest ih =>
      obtain ⟨op, b⟩ := p
      have ih' := ih
      simp only [dkeys] at ih'
      cases op with
      | none => simp [segLtbi_none, labelsOfSegs_cons, dkeys, ih']
      | some l => simp [segLtbi_some, labelsOfSegs_cons, dkeys, ih']

theorem countNone_some (l : String) (b : List Instr)
    (S : List (Option String × List Instr)) :
    countNone ((some l, b) :: S) = countNone S := rfl

theorem countNone_none (b : List Instr) (S : List (Option String × List Instr)) :
    countNone ((none, b) :: S) = countNone S + 1 := rfl

theorem mem_dkeys_segKeys (name : String) (S : List (Option String × List Instr)) :
    ∀ (g : Nat) (k : String), k ∈ dkeys (segKeys name g S) →
      (∃ l ∈ labelsOfSegs S, k = name ++ "::" ++ l) ∨
      (∃ j, g ≤ j ∧ j < g + countNone S ∧ k = name ++ "::b" ++ toString j) := by
  induction S with
  | nil => intro g k h; simp [segKeys, dkeys] at h
  | cons p rest ih =>
      intro g k h
      obtain ⟨op, b⟩ := p
      cases op with
      | some l =>
          rw [segKeys_some] at h
          simp only [dkeys, List.map_cons, List.mem_cons] at h
          rcases h with rfl | h
          · exact Or.inl ⟨l, by simp [labelsOfSegs_cons], rfl⟩
          · rcases ih g k (by simpa [dkeys] using h) with ⟨l', hl', rfl⟩ | ⟨j, hj1, hj2, rfl⟩
            · exact Or.inl ⟨l', by simp [labelsOfSegs_cons, hl'], rfl⟩
            · exact Or.inr ⟨j, hj1, by rw [countNone_some]; omega, rfl⟩
      | none =>
          rw [segKeys_none] at h
          simp only [dkeys, List.map_cons, List.mem_cons] at h
          rcases h with rfl | h
          · exact Or.inr ⟨g, Nat.le_refl g, by rw [countNone_none]; omega, rfl⟩
          · rcases ih (g + 1) k (by simpa [dkeys] using h) with ⟨l', hl', rfl⟩ | ⟨j, hj1, hj2, rfl⟩
            · exact Or.inl ⟨l', by simp [labelsOfSegs_cons, hl'], rfl⟩
            · exact Or.inr ⟨j, by omega, by rw [countNone_none]; omega, rfl⟩

theorem dkeys_segKeys_nodup (name : String) (S : List (Option String × List Instr)) :
    ∀ g : Nat, (labelsOfSegs S).Nodup →
      (∀ l ∈ labelsOfSegs S, ∀ j, j < g + countNone S → l ≠ "b" ++ toString j) →
      (dkeys (segKeys name g S)).Nodup := by
  induction S with
  | nil => intro g _ _; simp [segKeys, dkeys]
  | cons p rest ih =>
      intro g hnd hsyn
      obtain ⟨op, b⟩ := p
      cases op with
      | some l =>
          rw [labelsOfSegs_cons] at hnd hsyn
          simp only [Option.toList_some, List.singleton_append, List.nodup_cons] at hnd
          rw [segKeys_some]
          simp only [dkeys, List.map_cons, List.nodup_cons]
          constructor
          · intro hmem
            rcases mem_dkeys_segKeys name rest g _ (by simpa [dkeys] using hmem) with
              ⟨l', hl', heq⟩ | ⟨j, hj1, hj2, heq⟩
            · exact hnd.1 (key_lab_inj name l l' heq ▸ hl')
            · refine key_lab_ne_syn name l j ?_ heq
              refine hsyn l (by simp) j ?_
              rw [countNone_some]
              omega
          · refine ih g hnd.2 ?_
            intro l' hl' j hj
            refine hsyn l' (by simp [hl']) j ?_
            rw [countNone_some]
            omega
      | none =>
          rw [labelsOfSegs_cons] at hnd hsyn
          simp only [Option.toList_none, List.nil_append] at hnd hsyn
          rw [segKeys_none]
          simp only [dkeys, List.map_cons, List.nodup_cons]
          constructor
          · intro hmem
            rcases mem_dkeys_segKeys name rest (g + 1) _ (by simpa [dkeys] using hmem) with
              ⟨l', hl', heq⟩ | ⟨j, hj1, hj2, heq⟩
            · refine key_lab_ne_syn name l' g ?_ heq.symm
              refine hsyn l' hl' g ?_
              rw [countNone_none]
              omega
            · have := key_syn_inj name g j heq
              omega
          · refine ih (g + 1) hnd ?_
            intro l' hl' j hj
            refine hsyn l' hl' j ?_
            rw [countNone_none]
            omega

theorem segs_hyps (body : List Instr) (name : String)
    (hnd : (labelsOf body).Nodup)
    (hsyn : ∀ l ∈ labelsOf body, ∀ j, j ≤ body.length → l ≠ "b" ++ toString j) :
    (dkeys (segKeys name 0 (segs none [] body))).Nodup ∧
    (dkeys (segLtbi name (segs none [] body))).Nodup ∧
    (labelsOfSegs (segs none [] body)).Nodup ∧
    (∀ l ∈ labelsOfSegs (segs none [] body), ∀ j,
      j < countNone (segs none [] body) → l ≠ "b" ++ toString j) := by
  have hsub : List.Sublist (labelsOfSegs (segs none [] body)) (labelsOf body) := by
    have h0 := labelsOfSegs_sublist body none []
    simpa using h0
  have hndS : (labelsOfSegs (segs none [] body)).Nodup := hnd.sublist hsub
  have hsynS : ∀ l ∈ labelsOfSegs (segs none [] body), ∀ j,
      j < countNone (segs none [] body) → l ≠ "b" ++ toString j := by
    intro l hl j hj
    refine hsyn l (hsub.subset hl) j ?_
    have h1 := countNone_le_length (segs none [] body)
    have h2 := segs_length_le body none []
    omega
  refine ⟨dkeys_segKeys_nodup name _ 0 hndS (by simpa using hsynS), ?_, hndS, hsynS⟩
  rw [dkeys_segLtbi]
  exact hndS

theorem invertMap_swap (m : List (String × String))
    (h : (m.map Prod.snd).Nodup) : invertMap m = m.map Prod.swap := by
  suffices haux : ∀ acc : List (String × String),
      (∀ p ∈ m, p.2 ∉ dkeys acc) → (m.map Prod.snd).Nodup →
      m.foldl (fun acc p => dinsert p.2 p.1 acc) acc = acc ++ m.map Prod.swap by
    simpa [invertMap] using haux [] (by simp [dkeys]) h
  clear h
  induction m with
  | nil => intro acc _ _; simp
  | cons p rest ih =>
      intro acc hfresh hnd
      obtain ⟨k, v⟩ := p
      have hnd2 : (v :: rest.map Prod.snd).Nodup := by simpa using hnd
      have hv : v ∉ rest.map Prod.snd := (List.nodup_cons.mp hnd2).1
      have hrest : (rest.map Prod.snd).Nodup := (List.nodup_cons.mp hnd2).2
      simp only [List.foldl_cons]
      rw [dinsert_of_not_mem v k acc (hfresh (k, v) (List.mem_cons_self _ _))]
      rw [ih (acc ++ [(v, k)]) ?_ hrest]
      · simp
      · intro q hq
        rw [dkeys_append]
        simp only [List.mem_append]
        rintro (hL | hR)
        · exact hfresh q (List.mem_cons_of_mem _ hq) hL
        · have hqv : q.2 = v := by simpa [dkeys] using hR
          exact hv (hqv ▸ List.mem_map_of_mem Prod.snd hq)

theorem segLtbi_swap_lookup_lab (name : String) (S : List (Option String × List Instr))
    (l : String) (hnd : (labelsOfSegs S).Nodup) (hl : l ∈ labelsOfSegs S) :
    dlookup (name ++ "::" ++ l) ((segLtbi name S).map Prod.swap) = some l := by
  induction S with
  | nil => simp [labelsOfSegs_nil] at hl
  | cons p rest ih =>
      obtain ⟨op, b⟩ := p
      cases op with
      | none =>
          rw [segLtbi_none]
          rw [labelsOfSegs_cons] at hnd hl
          simp only [Option.toList_none, List.nil_append] at hnd hl
          exact ih hnd hl
      | some l' =>
          rw [segLtbi_some]
          rw [labelsOfSegs_cons] at hnd hl
          simp only [Option.toList_some, List.singleton_append, List.nodup_cons] at hnd
          simp only [List.map_cons]
          by_cases hll : l' = l
          · subst hll
            simp [dlookup, Prod.swap]
          · have hkey : ¬((l', name ++ "::" ++ l').swap.1 = name ++ "::" ++ l) := by
              intro hc
              exact hll (key_lab_inj name l' l (by simpa [Prod.swap] using hc))
            have hl2 : l ∈ labelsOfSegs rest := by
              rcases List.mem_cons.mp hl with rfl | h
              · exact absurd rfl hll
              · exact h
            rw [show ((l', name ++ "::" ++ l').swap : String × String) =
                (name ++ "::" ++ l', l') from rfl]
            rw [show ((l', name ++ "::" ++ l').swap : String × String).1 =
                name ++ "::" ++ l' from rfl] at hkey
            simp only [dlookup, if_neg hkey]
            exact ih hnd.2 hl2

theorem segLtbi_swap_lookup_syn (name : String) (S : List (Option String × List Instr))
    (g : Nat) (hsyn : ∀ l ∈ labelsOfSegs S, l ≠ "b" ++ toString g) :
    dlookup (name ++ "::b" ++ toString g) ((segLtbi name S).map Prod.swap) = none := by
  induction S with
  | nil => simp [segLtbi, dlookup]
  | cons p rest ih =>
      obtain ⟨op, b⟩ := p
      cases op with
      | none =>
          rw [segLtbi_none]
          rw [labelsOfSegs_cons] at hsyn
          simp only [Option.toList_none, List.nil_append] at hsyn
          exact ih hsyn
      | some l' =>
          rw [segLtbi_some]
          rw [labelsOfSegs_cons] at hsyn
          simp only [Option.toList_some, List.singleton_append] at hsyn
          simp only [List.map_cons]
          have hkey : ¬(name ++ "::" ++ l' = name ++ "::b" ++ toString g) :=
            fun hc => key_lab_ne_syn name l' g (hsyn l' (List.mem_cons_self _ _)) hc
          simp only [dlookup, Prod.swap]
          rw [if_neg hkey]
          exact ih (fun l hl => hsyn l (List.mem_cons_of_mem _ hl))

theorem emit_segKeys (name : String) (S : List (Option String × List Instr)) :
    ∀ (g : Nat) (inv : List (String × String)),
    (∀ l b, (some l, b) ∈ S → dlookup (name ++ "::" ++ l) inv = some l) →
    (∀ j, g ≤ j → j < g + countNone S → dlookup (name ++ "::b" ++ toString j) inv = none) →
    (segKeys name g S).flatMap (fun p =>
      (match dlookup p.1 inv with
       | some l => [mkLabel l]
       | none => []) ++ p.2) = S.flatMap emitSeg := by
  induction S with
  | nil => intro g inv _ _; rfl
  | cons p rest ih =>
      intro g inv hlab hsyn
      obtain ⟨op, b⟩ := p
      cases op with
      | some l =>
          rw [segKeys_some]
          simp only [List.flatMap_cons]
          rw [hlab l b (List.mem_cons_self _ _)]
          rw [ih g inv (fun l' b' h => hlab l' b' (List.mem_cons_of_mem _ h))
              (by
                intro j h1 h2
                refine hsyn j h1 ?_
                rw [countNone_some]
                omega)]
          rfl
      | none =>
          rw [segKeys_none]
          simp only [List.flatMap_cons]
          rw [hsyn g (Nat.le_refl g) (by rw [countNone_none]; omega)]
          rw [ih (g + 1) inv (fun l' b' h => hlab l' b' (List.mem_cons_of_mem _ h))
              (by
                intro j h1 h2
                refine hsyn j (by omega) ?_
                rw [countNone_none]
                omega)]
          rfl

theorem segs_flatMap_snd (body : List Instr) : ∀ (pending : Option String)
    (acc : List Instr),
    (segs pending acc body).flatMap Prod.snd = acc ++ body.filter (fun i => !is_label i) := by
  induction body with
  | nil =>
      intro pending acc
      rw [segs_nil]
      split
      · simp [*]
      · simp
  | cons i rest ih =>
      intro pending acc
      rw [segs_cons]
      by_cases hlab : is_label i
      · rw [if_pos hlab]
        rw [List.filter_cons_of_neg (by simp [hlab])]
        split
        · rename_i hacc
          rw [hacc]
          simpa using ih i.label []
        · simpa using ih i.label []
      · rw [if_neg hlab]
        rw [List.filter_cons_of_pos (by simp [hlab])]
        by_cases hterm : isTerm i
        · rw [if_pos hterm]
          simpa using ih none []
        · rw [if_neg hterm]
          simpa using ih pending (acc ++ [i])

theorem segs_blocks_nonlabel (body : List Instr) : ∀ (pending : Option String)
    (acc : List Instr), (∀ i ∈ acc, is_label i = false) →
    ∀ p ∈ segs pending acc body, ∀ i ∈ p.2, is_label i = false := by
  induction body with
  | nil =>
      intro pending acc hacc p hp i hi
      rw [segs_nil] at hp
      split at hp
      · simp at hp
      · rcases List.mem_singleton.mp hp with rfl
        exact hacc i hi
  | cons j rest ih =>
      intro pending acc hacc p hp i hi
      rw [segs_cons] at hp
      by_cases hlab : is_label j
      · rw [if_pos hlab] at hp
        rcases List.mem_append.mp hp with hp | hp
        · split at hp
          · simp at hp
          · rcases List.mem_singleton.mp hp with rfl
            exact hacc i hi
        · exact ih j.label [] (by simp) p hp i hi
      · rw [if_neg hlab] at hp
        have haccj : ∀ x ∈ acc ++ [j], is_label x = false := by
          intro x hx
          rcases List.mem_append.mp hx with hx | hx
          · exact hacc x hx
          · rcases List.mem_singleton.mp hx with rfl
            simpa using hlab
        by_cases hterm : isTerm j
        · rw [if_pos hterm] at hp
          rcases List.mem_cons.mp hp with rfl | hp
          · exact haccj i hi
          · exact ih none [] (by simp) p hp i hi
        · rw [if_neg hterm] at hp
          exact ih pending (acc ++ [j]) haccj p hp i hi

theorem emitSeg_none (b : List Instr) : emitSeg (none, b) = b := rfl

theorem emitSeg_some (l : String) (b : List Instr) :
    emitSeg (some l, b) = mkLabel l :: b := rfl

theorem segs_emit_sublist (body : List Instr) : ∀ (pending : Option String)
    (acc : List Instr),
    (∀ i ∈ body, is_label i = true → i = mkLabel (i.label.getD "")) →
    List.Sublist ((segs pending acc body).flatMap emitSeg)
      ((pending.toList.map mkLabel) ++ acc ++ body) := by
  induction body with
  | nil =>
      intro pending acc _
      rw [segs_nil]
      split
      · exact List.nil_sublist _
      · simp only [List.flatMap_cons, List.flatMap_nil, List.append_nil]
        cases pending with
        | none => simp [emitSeg_none]
        | some l0 => simp [emitSeg_some]
  | cons i rest ih =>
      intro pending acc hclean
      rw [segs_cons]
      by_cases hlab : is_label i
      · rw [if_pos hlab]
        obtain ⟨l, hl⟩ := is_label_some i hlab
        have hieq : i = mkLabel l := by
          have h0 := hclean i (List.mem_cons_self _ _) hlab
          rw [hl] at h0
          simpa using h0
        rw [hl, hieq]
        have hrec : List.Sublist ((segs (some l) [] rest).flatMap emitSeg)
            (mkLabel l :: rest) := by
          have h0 := ih i.label []
            (fun x hx hxl => hclean x (List.mem_cons_of_mem _ hx) hxl)
          rw [hl] at h0
          simpa using h0
        rw [List.flatMap_append]
        split
        · simp only [List.flatMap_nil, List.nil_append, List.append_nil]
          exact hrec.trans (List.sublist_append_right _ _)
        · simp only [List.flatMap_cons, List.flatMap_nil, List.append_nil]
          cases pending with
          | none =>
              rw [emitSeg_none]
              simp only [Option.toList_none, List.map_nil, List.nil_append,
                List.append_assoc]
              exact List.Sublist.append_left hrec acc
          | some l0 =>
              rw [emitSeg_some]
              simp only [Option.toList_some, List.map_cons, List.map_nil,
                List.singleton_append, List.cons_append, List.append_assoc]
              exact List.Sublist.cons₂ _ (List.Sublist.append_left hrec acc)
      · rw [if_neg hlab]
        by_cases hterm : isTerm i
        · rw [if_pos hterm]
          have hrec : List.Sublist ((segs none [] rest).flatMap emitSeg) rest := by
            have h0 := ih none []
              (fun x hx hxl => hclean x (List.mem_cons_of_mem _ hx) hxl)
            simpa using h0
          simp only [List.flatMap_cons]
          cases pending with
          | none =>
              rw [emitSeg_none]
              simp only [Option.toList_none, List.map_nil, List.nil_append,
                List.append_assoc, List.singleton_append]
              exact List.Sublist.append_left (List.Sublist.cons₂ _ hrec) acc
          | some l0 =>
              rw [emitSeg_some]
              simp only [Option.toList_some, List.map_cons, List.map_nil,
                List.singleton_append, List.cons_append, List.append_assoc]
              exact List.Sublist.cons₂ _
                (List.Sublist.append_left (List.Sublist.cons₂ _ hrec) acc)
        · rw [if_neg hterm]
          have hrec := ih pending (acc ++ [i])
            (fun x hx hxl => hclean x (List.mem_cons_of_mem _ hx) hxl)
          have heq : (pending.toList.map mkLabel) ++ (acc ++ [i]) ++ rest =
              (pending.toList.map mkLabel) ++ acc ++ (i :: rest) := by
            simp
          exact heq ▸ hrec

theorem segLtbi_map_snd (name : String) (S : List (Option String × List Instr)) :
    (segLtbi name S).map Prod.snd = (labelsOfSegs S).map (fun l => name ++ "::" ++ l) := by
  induction S with
  | nil => rfl
  | cons p rest ih =>
      obtain ⟨op, b⟩ := p
      cases op with
      | none => simp [segLtbi_none, labelsOfSegs_cons, ih]
      | some l => simp [segLtbi_some, labelsOfSegs_cons, ih]

theorem mem_labelsOfSegs (l : String) (b : List Instr)
    (S : List (Option String × List Instr)) (h : (some l, b) ∈ S) :
    l ∈ labelsOfSegs S :=
  List.mem_filterMap.mpr ⟨(some l, b), h, rfl⟩

theorem flatMap_congr_mem {α β : Type} {S : List α} {f g : α → List β}
    (h : ∀ s ∈ S, f s = g s) : S.flatMap f = S.flatMap g := by
  induction S with
  | nil => rfl
  | cons a S ih =>
      simp only [List.flatMap_cons]
      rw [h a (List.mem_cons_self _ _), ih (fun s hs => h s (List.mem_cons_of_mem _ hs))]

theorem filter_flatMap {α : Type} (S : List α) (f : α → List Instr) (p : Instr → Bool) :
    (S.flatMap f).filter p = S.flatMap (fun s => (f s).filter p) := by
  induction S with
  | nil => rfl
  | cons a S ih => simp [List.flatMap_cons, List.filter_append, ih]

theorem relinearize_chars (body : List Instr) (name : String)
    (hnd : (labelsOf body).Nodup)
    (hsyn : ∀ l ∈ labelsOf body, ∀ j, j ≤ body.length → l ≠ "b" ++ toString j) :
    relinearize (form_blocks body name) = (segs none [] body).flatMap emitSeg := by
  obtain ⟨h1, h2, hndS, hsynS⟩ := segs_hyps body name hnd hsyn
  obtain ⟨hlm, hltbi⟩ := form_blocks_chars body name h1 h2
  unfold relinearize
  rw [hlm, hltbi]
  have hvals : ((segLtbi name (segs none [] body)).map Prod.snd).Nodup := by
    rw [segLtbi_map_snd]
    refine List.Nodup.map ?_ hndS
    intro a b hab
    exact key_lab_inj name a b hab
  rw [invertMap_swap _ hvals]
  apply emit_segKeys
  · intro l b hmem
    exact segLtbi_swap_lookup_lab name _ l hndS (mem_labelsOfSegs l b _ hmem)
  · intro j h0 hj
    apply segLtbi_swap_lookup_syn
    intro l hl
    exact hsynS l hl j (by omega)

theorem segs_head_labeled (body : List Instr) : ∀ (pending : Option String)
    (acc : List Instr), pending.isSome = true →
    ∀ p ∈ (segs pending acc body).head?, p.1.isSome = true := by
  induction body with
  | nil =>
      intro pending acc hp p hmem
      rw [segs_nil] at hmem
      split at hmem
      · simp at hmem
      · simp only [List.head?_cons, Option.mem_def, Option.some.injEq] at hmem
        rw [← hmem]
        exact hp
  | cons i rest ih =>
      intro pending acc hp p hmem
      rw [segs_cons] at hmem
      by_cases hlab : is_label i
      · rw [if_pos hlab] at hmem
        have hisome : i.label.isSome = true := by
          simp only [is_label, Bool.and_eq_true] at hlab
          exact hlab.1
        split at hmem
        · simp only [List.nil_append] at hmem
          exact ih i.label [] hisome p hmem
        · simp only [List.singleton_append, List.head?_cons, Option.mem_def,
            Option.some.injEq] at hmem
          rw [← hmem]
          exact hp
      · rw [if_neg hlab] at hmem
        by_cases hterm : isTerm i
        · rw [if_pos hterm] at hmem
          simp only [List.head?_cons, Option.mem_def, Option.some.injEq] at hmem
          rw [← hmem]
          exact hp
        · rw [if_neg hterm] at hmem
          exact ih pending (acc ++ [i]) hp p hmem

theorem segs_chain (body : List Instr) : ∀ (pending : Option String) (acc : List Instr),
    List.Chain' (fun s1 s2 => endsInTermB s1.2 = true ∨ s2.1.isSome = true)
      (segs pending acc body) := by
  induction body with
  | nil =>
      intro pending acc
      rw [segs_nil]
      split
      · exact List.chain'_nil
      · exact List.chain'_singleton _
  | cons i rest ih =>
      intro pending acc
      rw [segs_cons]
      by_cases hlab : is_label i
      · rw [if_pos hlab]
        have hisome : i.label.isSome = true := by
          simp only [is_label, Bool.and_eq_true] at hlab
          exact hlab.1
        split
        · simpa using ih i.label []
        · rw [List.singleton_append]
          refine List.Chain'.cons' (ih i.label []) ?_
          intro y hy
          exact Or.inr (segs_head_labeled rest i.label [] hisome y hy)
      · rw [if_neg hlab]
        by_cases hterm : isTerm i
        · rw [if_pos hterm]
          refine List.Chain'.cons' (ih none []) ?_
          intro y _
          refine Or.inl ?_
          simp only [endsInTermB, List.getLast?_concat]
          exact hterm
        · rw [if_neg hterm]
          exact ih pending (acc ++ [i])

theorem mem_segLtbi_snd (name : String) (l : String) (b : List Instr)
    (S : List (Option String × List Instr)) (h : (some l, b) ∈ S) :
    (name ++ "::" ++ l) ∈ (segLtbi name S).map Prod.snd := by
  rw [segLtbi_map_snd]
  exact List.mem_map_of_mem _ (mem_labelsOfSegs l b S h)

theorem segKeys_chain (name : String) (V : List String)
    (S : List (Option String × List Instr)) :
    ∀ g : Nat, (∀ l b, (some l, b) ∈ S → (name ++ "::" ++ l) ∈ V) →
    List.Chain' (fun s1 s2 => endsInTermB s1.2 = true ∨ s2.1.isSome = true) S →
    List.Chain' (fun p1 p2 => endsInTermB p1.2 = true ∨ p2.1 ∈ V) (segKeys name g S) := by
  induction S with
  | nil => intro g _ _; exact List.chain'_nil
  | cons p rest ih =>
      intro g hV hchain
      obtain ⟨hd, htl⟩ := List.chain'_cons'.mp hchain
      obtain ⟨op, b⟩ := p
      have hVrest : ∀ l b', (some l, b') ∈ rest → (name ++ "::" ++ l) ∈ V :=
        fun l b' h => hV l b' (List.mem_cons_of_mem _ h)
      have hhead : ∀ g' : Nat, ∀ y ∈ (segKeys name g' rest).head?,
          endsInTermB b = true ∨ y.1 ∈ V := by
        intro g' y hy
        cases rest with
        | nil => simp [segKeys] at hy
        | cons q rest' =>
            obtain ⟨opq, bq⟩ := q
            have hR := hd (opq, bq) (by simp)
            cases opq with
            | some l =>
                rw [segKeys_some] at hy
                simp only [List.head?_cons, Option.mem_def, Option.some.injEq] at hy
                rcases hR with hR | _
                · exact Or.inl hR
                · refine Or.inr ?_
                  rw [← hy]
                  exact hV l bq (List.mem_cons_of_mem _ (List.mem_cons_self _ _))
            | none =>
                rw [segKeys_none] at hy
                simp only [List.head?_cons, Option.mem_def, Option.some.injEq] at hy
                rcases hR with hR | hR
                · exact Or.inl hR
                · simp at hR
      cases op with
      | some l =>
          rw [segKeys_some]
          exact List.chain'_cons'.mpr ⟨hhead g, ih g hVrest htl⟩
      | none =>
          rw [segKeys_none]
          exact List.chain'_cons'.mpr ⟨hhead (g + 1), ih (g + 1) hVrest htl⟩

/-! ### Claims C2 and C7: statements -/

/-- C2 counterexample: with a duplicate label, `form_blocks` overwrites the
first block stored under `f::l` in `label_map`, so re-linearizing drops
`x = const 1`: the output stream does not contain the input's non-label
instructions. -/
theorem relinearize_cex :
    (relinearize (form_blocks
        [mkLabel "l", constI "x" 1, mkLabel "l", constI "y" 2] "f")).filter
        (fun i => !is_label i) ≠
      ([mkLabel "l", constI "x" 1, mkLabel "l", constI "y" 2] : List Instr).filter
        (fun i => !is_label i) := by
  decide

/-- C2 (amended): for streams whose labels are pairwise distinct, collide
with no synthetic block name `b<j>`, and whose label markers carry only the
label field, re-linearizing the blocks of `form_blocks` yields exactly the
input's non-label instructions in their original relative order (same
terminators included), and the whole output is a subsequence of the input —
the only difference is label markers dropped by the empty-block discard. -/
theorem relinearize_round_trip (body : List Instr) (name : String)
    (hnd : (labelsOf body).Nodup)
    (hsyn : ∀ l ∈ labelsOf body, ∀ j, j ≤ body.length → l ≠ "b" ++ toString j)
    (hclean : ∀ i ∈ body, is_label i = true → i = mkLabel (i.label.getD "")) :
    (relinearize (form_blocks body name)).filter (fun i => !is_label i) =
      body.filter (fun i => !is_label i) ∧
    List.Sublist (relinearize (form_blocks body name)) body := by
  rw [relinearize_chars body name hnd hsyn]
  constructor
  · rw [filter_flatMap]
    have hall := segs_blocks_nonlabel body none [] (by simp)
    have hpt : ∀ s ∈ segs none [] body,
        (emitSeg s).filter (fun i => !is_label i) = s.2 := by
      intro s hs
      obtain ⟨op, b⟩ := s
      have hb : ∀ i ∈ b, is_label i = false := fun i hi => hall (op, b) hs i hi
      have hbf : b.filter (fun i => !is_label i) = b :=
        List.filter_eq_self.mpr (fun i hi => by simp [hb i hi])
      cases op with
      | none => rw [emitSeg_none]; exact hbf
      | some l =>
          rw [emitSeg_some]
          rw [List.filter_cons_of_neg (by simp [is_label, mkLabel])]
          exact hbf
    rw [flatMap_congr_mem hpt]
    have := segs_flatMap_snd body none []
    simpa using this
  · have := segs_emit_sublist body none [] hclean
    simpa using this

/-- Witness for C2: a stream with a fallthrough block, a jump, a labeled
block and a trailing (dropped) label. -/
theorem relinearize_round_trip_witness :
    (relinearize (form_blocks
        [constI "x" 1, jmpI "l", mkLabel "l", retI, mkLabel "z"] "f")).filter
        (fun i => !is_label i) =
      ([constI "x" 1, jmpI "l", mkLabel "l", retI, mkLabel "z"] : List Instr).filter
        (fun i => !is_label i) ∧
    List.Sublist
      (relinearize (form_blocks [constI "x" 1, jmpI "l", mkLabel "l", retI, mkLabel "z"] "f"))
      [constI "x" 1, jmpI "l", mkLabel "l", retI, mkLabel "z"] :=
  relinearize_round_trip [constI "x" 1, jmpI "l", mkLabel "l", retI, mkLabel "z"] "f"
    (by decide) (by decide) (by decide)

/-- C7 counterexample: in `[x = const 1; label l; y = const 2]` the first
block is closed by the label, ends in `const`, and is not the last block —
so it is false that every non-final block ends with a terminator. -/
theorem blocks_terminator_cex :
    ¬(∀ idx, idx < (form_blocks [constI "x" 1, mkLabel "l", constI "y" 2] "f").label_map.length - 1 →
        endsInTermB (((form_blocks [constI "x" 1, mkLabel "l", constI "y" 2] "f").label_map.getD
          idx ("", [])).2) = true) := by
  decide

/-- C7 (amended): for streams with pairwise-distinct labels not colliding
with synthetic `b<j>` names, every block of `form_blocks` except the last
either ends with a terminator or is immediately followed by a labeled block
(one whose identifier appears among the `label_to_block_id` values) — blocks
are also closed by fallthrough into a label, not only by terminators. -/
theorem blocks_terminator_every (body : List Instr) (name : String)
    (hnd : (labelsOf body).Nodup)
    (hsyn : ∀ l ∈ labelsOf body, ∀ j, j ≤ body.length → l ≠ "b" ++ toString j) :
    ∀ idx, idx < (form_blocks body name).label_map.length - 1 →
      endsInTermB (((form_blocks body name).label_map.getD idx ("", [])).2) = true ∨
      ((form_blocks body name).label_map.getD (idx + 1) ("", [])).1 ∈
        (form_blocks body name).label_to_block_id.map Prod.snd := by
  obtain ⟨h1, h2, _, _⟩ := segs_hyps body name hnd hsyn
  obtain ⟨hlm, hltbi⟩ := form_blocks_chars body name h1 h2
  have hchain : List.Chain' (fun p1 p2 => endsInTermB p1.2 = true ∨
      p2.1 ∈ (form_blocks body name).label_to_block_id.map Prod.snd)
      (form_blocks body name).label_map := by
    rw [hlm, hltbi]
    refine segKeys_chain name _ (segs none [] body) 0 ?_ (segs_chain body none [])
    intro l b hmem
    exact mem_segLtbi_snd name l b _ hmem
  intro idx hidx
  have h := List.chain'_iff_get.mp hchain idx hidx
  have hl1 : idx < (form_blocks body name).label_map.length := by omega
  have hl2 : idx + 1 < (form_blocks body name).label_map.length := by omega
  have e1 : (form_blocks body name).label_map.getD idx ("", []) =
      (form_blocks body name).label_map.get ⟨idx, hl1⟩ := by
    rw [List.getD_eq_getElem?_getD, List.getElem?_eq_getElem hl1]
    simp
  have e2 : (form_blocks body name).label_map.getD (idx + 1) ("", []) =
      (form_blocks body name).label_map.get ⟨idx + 1, hl2⟩ := by
    rw [List.getD_eq_getElem?_getD, List.getElem?_eq_getElem hl2]
    simp
  rw [e1, e2]
  exact h

/-- Witness for C7: the first block of a two-block function ends in `jmp`. -/
theorem blocks_terminator_every_witness :
    endsInTermB (((form_blocks [constI "x" 1, jmpI "l", mkLabel "l", retI] "f").label_map.getD
        0 ("", [])).2) = true ∨
    ((form_blocks [constI "x" 1, jmpI "l", mkLabel "l", retI] "f").label_map.getD
        1 ("", [])).1 ∈
      (form_blocks [constI "x" 1, jmpI "l", mkLabel "l", retI] "f").label_to_block_id.map
        Prod.snd :=
  blocks_terminator_every [constI "x" 1, jmpI "l", mkLabel "l", retI] "f"
    (by decide) (by decide) 0 (by decide)
